import Mathlib

/-!
Verification of the federation consistency engine of a Django social-network
backend. Each definition is a shallow embedding of a function, model
constraint, or signal handler from the repository source, written to mirror
the Python control flow as directly as Lean allows. Theorems below the
definitions settle a fixed list of behavioural claims about the engine:
the derived friendship invariant, URL normalization, resolver and inbox
idempotence, visibility resolution, like-target exclusivity, undo handling,
and outbound fan-out error isolation.
-/

set_option maxHeartbeats 1000000

namespace Social

/-! ## Python string ordering

`Friendship.update_friendships` orders the two authors of a friendship row by
`str(author1.url) < str(author2.url)`. Python compares strings
lexicographically by code point; `pyStrLtL` mirrors that on the character
list, and `pyStrLt` lifts it to `String`.
-/

def pyStrLtL : List Char → List Char → Bool
  | [], [] => false
  | [], _ :: _ => true
  | _ :: _, [] => false
  | a :: as, b :: bs =>
    if a.toNat < b.toNat then true
    else if b.toNat < a.toNat then false
    else pyStrLtL as bs

def pyStrLt (a b : String) : Bool :=
  pyStrLtL a.toList b.toList

/-! ## Follow and Friendship model

`app/models/follow.py` stores directed follow edges with a status in
requesting / accepted / rejected. `app/models/friendship.py` stores the
derived symmetric friendship relation, ordered by URL, with the
`no_self_friendship` check constraint. `app/models/utils.py` wires Django's
`post_save` / `post_delete` signals on `Follow` to
`Friendship.update_friendships`. Authors are identified here by their URL
string, which is the foreign-key join key used by both models
(`to_field="url"`).
-/

inductive FStatus where
  | requesting
  | accepted
  | rejected
deriving DecidableEq, Repr

structure FollowRow where
  follower : String
  followed : String
  status : FStatus
deriving DecidableEq, Repr

structure DB where
  follows : List FollowRow
  friendships : List (String × String)
deriving DecidableEq, Repr

/-- `Follow.objects.filter(follower=a, followed=b, status=ACCEPTED).exists()`. -/
def hasAcceptedFollow (db : DB) (a b : String) : Bool :=
  db.follows.any fun r => r.follower == a && r.followed == b && r.status == FStatus.accepted

/-- The ordering applied before `get_or_create`: `if str(author1.url) <
str(author2.url)` keep the order, else swap. -/
def canonPair (a b : String) : String × String :=
  if pyStrLt a b then (a, b) else (b, a)

/-- `Friendship.update_friendships(author1, author2)` from
`app/models/friendship.py`: if both directions of follow are ACCEPTED,
get-or-create the friendship row ordered by `str(url) <`; the create is
subject to the `no_self_friendship` check constraint `author1 != author2`,
which rejects the insert (the row is not stored). Otherwise delete any
friendship row for the pair in either order.
-/
def updateFriendships (a b : String) (db : DB) : DB :=
  if hasAcceptedFollow db a b && hasAcceptedFollow db b a then
    if db.friendships.contains (canonPair a b) then db
    else if (canonPair a b).1 == (canonPair a b).2 then db
    else { db with friendships := db.friendships ++ [canonPair a b] }
  else
    { db with friendships := db.friendships.filter fun p => !(p == (a, b) || p == (b, a)) }

/-- Upsert of a `Follow` row for the unique `(follower, followed)` pair:
covers both `Follow.objects.create(...)` and loading an existing row,
setting `follow.status`, and calling `follow.save()`. -/
def saveFollowRows (a b : String) (st : FStatus) (l : List FollowRow) : List FollowRow :=
  if l.any (fun r => r.follower == a && r.followed == b) then
    l.map fun r => if r.follower == a && r.followed == b then { r with status := st } else r
  else
    l ++ [⟨a, b, st⟩]

/-- Saving a `Follow` row, followed by the `post_save` signal handler
`update_friendship_on_follow_save` from `app/models/utils.py`, which calls
`Friendship.update_friendships` only when `instance.status == ACCEPTED`.
-/
def saveFollow (a b : String) (st : FStatus) (db : DB) : DB :=
  if st = FStatus.accepted then
    updateFriendships a b { db with follows := saveFollowRows a b st db.follows }
  else
    { db with follows := saveFollowRows a b st db.follows }

/-- Deleting the `Follow` row for `(a, b)`, followed by the `post_delete` signal
handler `update_friendship_on_follow_delete`, which calls
`Friendship.update_friendships` unconditionally. When no row matches, the
delete is a no-op and no signal fires.
-/
def deleteFollow (a b : String) (db : DB) : DB :=
  if db.follows.any (fun r => r.follower == a && r.followed == b) then
    updateFriendships a b
      { db with follows := db.follows.filter fun r => !(r.follower == a && r.followed == b) }
  else db

/-- The three Follow mutations the signal layer reacts to. -/
inductive FollowOp where
  | save (a b : String) (st : FStatus)
  | del (a b : String)

def applyOp : FollowOp → DB → DB
  | .save a b st, db => saveFollow a b st db
  | .del a b, db => deleteFollow a b db

/-- A friendship row for the unordered pair exists (either stored order). -/
def friendRowExists (db : DB) (a b : String) : Bool :=
  db.friendships.contains (a, b) || db.friendships.contains (b, a)

/-- Both directions of follow are ACCEPTED. -/
def mutualAccepted (db : DB) (a b : String) : Bool :=
  hasAcceptedFollow db a b && hasAcceptedFollow db b a

/-- Every stored friendship row is in canonical order (`author1.url < author2.url`). -/
def Canonical (db : DB) : Prop :=
  ∀ p ∈ db.friendships, pyStrLt p.1 p.2 = true

/-- The friendship invariant: rows are canonically ordered, and a canonical
pair is stored exactly when both follow directions are ACCEPTED. -/
def FriendInv (db : DB) : Prop :=
  Canonical db ∧
    ∀ a b : String, pyStrLt a b = true →
      ((a, b) ∈ db.friendships ↔ mutualAccepted db a b = true)

/-- The accepted-follow test for a fixed directed pair, as a row predicate. -/
def accPred (a b : String) (r : FollowRow) : Bool :=
  r.follower == a && r.followed == b && r.status == FStatus.accepted

/-- Follow mutations whose handling is compatible with the save-signal guard:
everything except a save that downgrades a currently ACCEPTED direction. -/
def OpAllowed (db : DB) : FollowOp → Prop
  | .save a b st => st = FStatus.accepted ∨ hasAcceptedFollow db a b = false
  | .del _ _ => True

/-- No friendship row relates an author to itself. -/
def NoSelfFriendship (db : DB) : Prop :=
  ∀ p ∈ db.friendships, p.1 ≠ p.2

/-! ## Visibility resolver

`EntryManager.visible_to_author` in `app/models/entry.py` filters entries by
visibility level using the viewer, an ACCEPTED-follow EXISTS subquery, and a
friendship EXISTS subquery (either stored order). Anonymous viewers get
`filter(Q(visibility=PUBLIC)).exclude(visibility=DELETED)`. Only the entry
fields the queryset touches (author, visibility) are modelled.
-/

inductive Visibility where
  | PUBLIC
  | UNLISTED
  | FRIENDS
  | DELETED
deriving DecidableEq, Repr

structure EntryRow where
  author : String
  visibility : Visibility
deriving DecidableEq, Repr

/-- The friendship EXISTS subquery:
`Q(author1=viewer, author2=entry.author) | Q(author1=entry.author, author2=viewer)`. -/
def friendshipExistsB (db : DB) (viewer author : String) : Bool :=
  db.friendships.any fun p => (p.1 == viewer && p.2 == author) || (p.1 == author && p.2 == viewer)

/-- Per-entry membership in the `visible_to_author` queryset. `viewer = none` is
the anonymous branch (`PUBLIC` only, then `.exclude(DELETED)`); an
authenticated viewer gets the five-way `Q` disjunction of the source, with
`&` binding tighter than `|`, then `.exclude(DELETED)`.
-/
def visibleToAuthor (viewer : Option String) (e : EntryRow) (db : DB) : Bool :=
  match viewer with
  | none => (e.visibility == Visibility.PUBLIC) && !(e.visibility == Visibility.DELETED)
  | some v =>
    ((e.visibility == Visibility.PUBLIC)
      || (e.visibility == Visibility.UNLISTED && e.author == v)
      || (e.visibility == Visibility.UNLISTED
          && (hasAcceptedFollow db v e.author || friendshipExistsB db v e.author))
      || (e.visibility == Visibility.FRIENDS && e.author == v)
      || (e.visibility == Visibility.FRIENDS && friendshipExistsB db v e.author))
    && !(e.visibility == Visibility.DELETED)

/-! ## Like model

`app/models/like.py`: a Like has a UUID primary key, a unique URL, an
author, and nullable foreign keys to Entry and Comment. `Meta` enforces the
check constraints `like_has_target` (entry or comment non-null) and
`like_single_target` (not both non-null), plus `unique_together` on
(author, entry) and (author, comment) — with SQL NULL semantics, so rows
with a NULL in the pair never conflict — and uniqueness of `url` and of the
primary key.
-/

structure LikeRow where
  id : String
  url : String
  author : String
  entry : Option String
  comment : Option String
deriving DecidableEq, Repr

/-- Persisting a Like: the write succeeds only if every constraint of
`Like.Meta` holds, otherwise the database rejects it and the row is never
stored.
-/
def createLike (l : LikeRow) (store : List LikeRow) : Except String (List LikeRow) :=
  if !(l.entry.isSome || l.comment.isSome) then .error "like_has_target"
  else if l.entry.isSome && l.comment.isSome then .error "like_single_target"
  else if store.any (fun r => r.author == l.author && l.entry.isSome && r.entry == l.entry) then
    .error "unique_author_entry"
  else if store.any (fun r => r.author == l.author && l.comment.isSome && r.comment == l.comment) then
    .error "unique_author_comment"
  else if store.any (fun r => r.url == l.url) then .error "unique_url"
  else if store.any (fun r => r.id == l.id) then .error "unique_id"
  else .ok (store ++ [l])

def countEntryLikes (store : List LikeRow) (a t : String) : Nat :=
  (store.filter fun r => r.author == a && r.entry == some t).length

def countCommentLikes (store : List LikeRow) (a t : String) : Nat :=
  (store.filter fun r => r.author == a && r.comment == some t).length

/-- Every persisted Like targets exactly one of Entry / Comment, and each
(author, target) pair has at most one Like. -/
def LikeInv (store : List LikeRow) : Prop :=
  (∀ r ∈ store, (r.entry.isSome = true ∨ r.comment.isSome = true)
      ∧ ¬(r.entry.isSome = true ∧ r.comment.isSome = true)) ∧
  (∀ a t : String, countEntryLikes store a t ≤ 1) ∧
  (∀ a t : String, countCommentLikes store a t ≤ 1)

/-! ## URL normalizer

`normalize_author_url` in `app/utils/url_utils.py` parses a URL with
CPython's `urllib.parse.urlparse` and reassembles it with lowercased scheme
and host, default ports stripped, credentials preserved, trailing slashes
removed from the path, and query/fragment re-attached when present. The
parser below models CPython 3.11's `urlsplit` / `urlparse` (including the
WHATWG leading-strip, unsafe-byte removal, scheme detection, netloc
delimiting, fragment/query splitting, `;params` splitting, and the
username/password/hostname/port properties) on character lists. The model
covers ASCII URLs without IPv6 bracket notation: bracket handling,
non-ASCII lowercasing and the NFKC netloc check are not modelled.
-/

/-- ASCII lowercasing of one character (`str.lower` on ASCII input). -/
def lowerChar (c : Char) : Char :=
  if 65 ≤ c.toNat ∧ c.toNat ≤ 90 then Char.ofNat (c.toNat + 32) else c

def lowerL (l : List Char) : List Char := l.map lowerChar

/-- WHATWG C0-control-or-space class, lstripped from the URL head. -/
def c0OrSpace (c : Char) : Bool := c.toNat ≤ 32

/-- `_UNSAFE_URL_BYTES_TO_REMOVE`: tab, CR, LF are removed everywhere. -/
def unsafeChar (c : Char) : Bool := c == '\t' || c == '\r' || c == '\n'

/-- `scheme_chars`: letters, digits, plus, minus, dot. -/
def schemeChar (c : Char) : Bool :=
  c.isAlpha || c.isDigit || c == '+' || c == '-' || c == '.'

/-- The three netloc delimiters of `_splitnetloc`. -/
def netlocEnd (c : Char) : Bool := c == '/' || c == '?' || c == '#'

/-- Split around the first character satisfying `p`: returns the prefix
before it and, when found, the suffix after it (`str.split(sep, 1)` /
`str.partition`). -/
def splitFirst (p : Char → Bool) : List Char → List Char × Option (List Char)
  | [] => ([], none)
  | c :: cs =>
    if p c then ([], some cs)
    else
      let r := splitFirst p cs
      (c :: r.1, r.2)

/-- Split around the last occurrence of `ch` (`str.rpartition`). -/
def splitLastChar (ch : Char) : List Char → Option (List Char × List Char)
  | [] => none
  | c :: cs =>
    match splitLastChar ch cs with
    | some (pre, rest) => some (c :: pre, rest)
    | none => if c == ch then some ([], cs) else none

/-- The five `urlsplit` components, plus a flag recording whether the
authority marker `//` was present (needed to state domain hypotheses; it is
not part of CPython's result tuple). -/
structure SplitUrl where
  scheme : List Char
  netloc : List Char
  path : List Char
  query : List Char
  fragment : List Char
  hasAuth : Bool
deriving DecidableEq, Repr

/-- Scheme detection of `urlsplit`: first `:` with a nonempty, ASCII-alpha
led, `scheme_chars`-only candidate before it; the scheme is lowercased. -/
def splitScheme (l : List Char) : List Char × List Char :=
  match splitFirst (fun c => c == ':') l with
  | (_, none) => ([], l)
  | (pre, some rest) =>
    match pre with
    | [] => ([], l)
    | c :: cs =>
      if c.isAlpha && (c :: cs).all schemeChar then (lowerL (c :: cs), rest)
      else ([], l)

/-- Fragment and query splitting applied to the part after the netloc
(`url.split('#', 1)` then `url.split('?', 1)`), leaving the path. -/
def splitFragQuery (rest2 : List Char) : List Char × List Char × List Char :=
  ((splitFirst (fun c => c == '?') (splitFirst (fun c => c == '#') rest2).1).1,
    ((splitFirst (fun c => c == '?') (splitFirst (fun c => c == '#') rest2).1).2).getD [],
    ((splitFirst (fun c => c == '#') rest2).2).getD [])

/-- The part of `urlsplit` after scheme detection: netloc when the rest
starts with `//` (`url[:2] == '//'`), then fragment and query. -/
def urlsplitRest (scheme rest1 : List Char) : SplitUrl :=
  if rest1.take 2 = ['/', '/'] then
    ⟨scheme, (rest1.drop 2).takeWhile (fun c => !netlocEnd c),
      (splitFragQuery ((rest1.drop 2).dropWhile fun c => !netlocEnd c)).1,
      (splitFragQuery ((rest1.drop 2).dropWhile fun c => !netlocEnd c)).2.1,
      (splitFragQuery ((rest1.drop 2).dropWhile fun c => !netlocEnd c)).2.2,
      true⟩
  else
    ⟨scheme, [], (splitFragQuery rest1).1, (splitFragQuery rest1).2.1,
      (splitFragQuery rest1).2.2, false⟩

/-- CPython 3.11 `urlsplit` on a character list: lstrip C0/space, remove
unsafe bytes, detect the scheme, take the netloc after `//` up to the first
`/`, `?` or `#`, then split fragment at the first `#` and query at the
first `?`. Not modelled: the bracket *validation* of `urlsplit` (the
Invalid-IPv6-URL raise on mismatched brackets and `_check_bracketed_host`
on matched ones); every theorem below therefore either hypothesises a
bracket-free netloc or instantiates at a concrete URL on which that
validation raises nothing (`[::1]` is a valid bracketed host). -/
def urlsplitL (url0 : List Char) : SplitUrl :=
  urlsplitRest
    (splitScheme ((url0.dropWhile c0OrSpace).filter fun c => !unsafeChar c)).1
    (splitScheme ((url0.dropWhile c0OrSpace).filter fun c => !unsafeChar c)).2

/-- `uses_params` (the schemes for which `urlparse` splits `;params`). -/
def usesParams : List (List Char) :=
  [[], "ftp".toList, "hdl".toList, "prospero".toList, "http".toList,
    "imap".toList, "https".toList, "shttp".toList, "rtsp".toList,
    "rtspu".toList, "sip".toList, "sips".toList, "mms".toList,
    "sftp".toList, "tel".toList]

/-- `_splitparams`: split at the first `;` of the last path segment (or of
the whole string when there is no `/`). -/
def splitparams (url : List Char) : List Char × List Char :=
  if url.contains '/' then
    match splitLastChar '/' url with
    | some (before, lastSeg) =>
      match splitFirst (fun c => c == ';') lastSeg with
      | (_, none) => (url, [])
      | (pre, some post) => (before ++ '/' :: pre, post)
    | none => (url, [])
  else
    match splitFirst (fun c => c == ';') url with
    | (pre, some post) => (pre, post)
    | (pre, none) => (pre, [])

/-- The path component of `urlparse`: `urlsplit`'s path with `;params`
removed when the scheme uses params. -/
def parsePath (scheme path : List Char) : List Char :=
  if usesParams.contains scheme && path.contains ';' then (splitparams path).1
  else path

/-- `netloc.rpartition('@')[0]` when an `@` is present (the userinfo). -/
def userinfoOf (netloc : List Char) : Option (List Char) :=
  match splitLastChar '@' netloc with
  | some (ui, _) => some ui
  | none => none

/-- The part of the netloc after the last `@` (the hostinfo). -/
def hostinfoOf (netloc : List Char) : List Char :=
  match splitLastChar '@' netloc with
  | some (_, hi) => hi
  | none => netloc

/-- `ParseResult.username`. -/
def usernameOf (netloc : List Char) : Option (List Char) :=
  (userinfoOf netloc).map fun ui => (splitFirst (fun c => c == ':') ui).1

/-- `ParseResult.password` (`None` when the userinfo has no `:`). -/
def passwordOf (netloc : List Char) : Option (List Char) :=
  match userinfoOf netloc with
  | none => none
  | some ui =>
    match splitFirst (fun c => c == ':') ui with
    | (_, some rest) => some rest
    | (_, none) => none

/-- The part of the hostinfo after the first `[`
(`hostinfo.partition('[')[2]` in `ParseResult._hostinfo`; empty when there
is no opening bracket). -/
def bracketedOf (netloc : List Char) : List Char :=
  ((splitFirst (fun c => c == '[') (hostinfoOf netloc)).2).getD []

/-- The hostname of `ParseResult._hostinfo`: when the hostinfo has an
opening bracket, the bracketed part before the first `]` (the brackets are
stripped), otherwise the hostinfo up to the first `:`. The `hostname`
property also lowercases, which `normalize_author_url` repeats, so the
single lowercasing is applied at the use site. -/
def hostRawOf (netloc : List Char) : List Char :=
  if (hostinfoOf netloc).contains '[' then
    (splitFirst (fun c => c == ']') (bracketedOf netloc)).1
  else (splitFirst (fun c => c == ':') (hostinfoOf netloc)).1

/-- The port substring of `ParseResult._hostinfo`: in the bracketed branch
the part after the first `:` of what follows the `]`, otherwise the
hostinfo after the first `:`; empty means `None`. -/
def portStrOf (netloc : List Char) : Option (List Char) :=
  if (hostinfoOf netloc).contains '[' then
    match splitFirst (fun c => c == ':')
        (((splitFirst (fun c => c == ']') (bracketedOf netloc)).2).getD []) with
    | (_, some rest) => if rest = [] then none else some rest
    | (_, none) => none
  else
    match splitFirst (fun c => c == ':') (hostinfoOf netloc) with
    | (_, some rest) => if rest = [] then none else some rest
    | (_, none) => none

def digitVal (c : Char) : Nat := c.toNat - 48

def digitsToNat (s : List Char) : Nat :=
  s.foldl (fun acc c => acc * 10 + digitVal c) 0

def digitChar (n : Nat) : Char := Char.ofNat (48 + n)

/-- Decimal rendering with structural fuel (the fuel is always sufficient
at the call site, where it is `n + 1`). -/
def natToDigitsAux : Nat → Nat → List Char
  | 0, _ => []
  | fuel + 1, n =>
    if n < 10 then [digitChar n]
    else natToDigitsAux fuel (n / 10) ++ [digitChar (n % 10)]

/-- Decimal rendering of a natural number (`f-string` formatting). -/
def natToDigitsL (n : Nat) : List Char := natToDigitsAux (n + 1) n

/-- The `port` property: digits-only cast, range-checked 0..65535; anything
else raises `ValueError` (modelled as `.error`). -/
def parsePort (netloc : List Char) : Except Unit (Option Nat) :=
  match portStrOf netloc with
  | none => .ok none
  | some s =>
    if s.all Char.isDigit then
      if digitsToNat s ≤ 65535 then .ok (some (digitsToNat s)) else .error ()
    else .error ()

/-- The two port tests of `normalize_author_url`: the default-port strip
(`if port and (http/80 or https/443)`) and the truthiness test at netloc
assembly (`if port:`), which also drops port 0. -/
def portKept (scheme : List Char) (p : Nat) : Bool :=
  !(p == 0) && !((scheme == "http".toList && p == 80)
    || (scheme == "https".toList && p == 443))

/-- `path.rstrip('/')`. -/
def rstripSlash (l : List Char) : List Char :=
  (l.reverse.dropWhile fun c => c == '/').reverse

/-- `host` or `host:port` (`if port: netloc = f"hostname:port"`). -/
def hostPort (host : List Char) (port? : Option Nat) : List Char :=
  match port? with
  | some p => host ++ ':' :: natToDigitsL p
  | none => host

/-- Reassembled netloc: `host` or `host:port`, prefixed with
`username@` or `username:password@` when the username is truthy
(the password is attached only when itself truthy). -/
def buildNetloc (user? pw? : Option (List Char)) (host : List Char)
    (port? : Option Nat) : List Char :=
  match user? with
  | none => hostPort host port?
  | some user =>
    if user = [] then hostPort host port?
    else
      match pw? with
      | some pw =>
        if pw = [] then user ++ '@' :: hostPort host port?
        else user ++ ':' :: pw ++ '@' :: hostPort host port?
      | none => user ++ '@' :: hostPort host port?

/-- The port that survives the two `if port` tests, given the lowered
scheme. -/
def portOutOf (scheme : List Char) (port? : Option Nat) : Option Nat :=
  match port? with
  | none => none
  | some p => if portKept scheme p then some p else none

/-- `if parsed.query: normalized += f"?query"`. -/
def addQuery (query base : List Char) : List Char :=
  if query = [] then base else base ++ '?' :: query

/-- `if parsed.fragment: normalized += f"#fragment"`. -/
def addFragment (frag base : List Char) : List Char :=
  if frag = [] then base else base ++ '#' :: frag

/-- The reassembly of `normalize_author_url` after parsing: lowercase
scheme and host, strip default ports, rebuild `user[:pw]@host[:port]`,
rstrip the path, reattach nonempty query and fragment. -/
def normalizeSplit (u : SplitUrl) : Except Unit (List Char) :=
  match parsePort u.netloc with
  | .error () => .error ()
  | .ok port? =>
    .ok (addFragment u.fragment (addQuery u.query
      (lowerL u.scheme ++ ':' :: '/' :: '/' ::
        (buildNetloc (usernameOf u.netloc) (passwordOf u.netloc)
            (lowerL (hostRawOf u.netloc)) (portOutOf (lowerL u.scheme) port?)
          ++ rstripSlash (parsePath (lowerL u.scheme) u.path)))))

/-- `normalize_author_url` on a character list: empty input is returned
unchanged (`if not url`), otherwise parse and reassemble; `.error` models a
raised `ValueError` (invalid port). -/
def normalizeAuthorUrlL (l : List Char) : Except Unit (List Char) :=
  if l = [] then .ok l
  else normalizeSplit (urlsplitL l)

/-- `normalize_author_url` on strings; `none` models an exception. -/
def normalizeAuthorUrl (s : String) : Option String :=
  match normalizeAuthorUrlL s.toList with
  | .ok l => some (String.mk l)
  | .error _ => none

/-- Django `Model.objects.update_or_create(key=k, defaults=...)` over a
list-backed table: the row keyed `k` is overwritten with `row` when present
(the key is unique in a valid table, so the first match is the row), and
appended otherwise; the flag is Django's `created`. -/
def updateOrCreateBy {α : Type} {β : Type} [DecidableEq β] (key : α → β)
    (k : β) (row : α) : List α → List α × Bool
  | [] => ([row], true)
  | r :: rs =>
    if key r = k then (row :: rs, false)
    else (r :: (updateOrCreateBy key k row rs).1, (updateOrCreateBy key k row rs).2)

/-- Django `Model.objects.get_or_create(key=k, defaults=...)`: the existing
row is kept untouched when present, `row` is appended otherwise. -/
def getOrCreateBy {α : Type} {β : Type} [DecidableEq β] (key : α → β)
    (k : β) (row : α) : List α → List α × Bool
  | [] => ([row], true)
  | r :: rs =>
    if key r = k then (r :: rs, false)
    else (r :: (getOrCreateBy key k row rs).1, (getOrCreateBy key k row rs).2)

/-- Rows of a table whose key equals `k`. -/
def rowsBy {α : Type} {β : Type} [DecidableEq β] (key : α → β) (k : β)
    (store : List α) : List α :=
  store.filter (fun r => decide (key r = k))

/-- The author fields read from an activity payload by
`_get_or_create_author_from_activity` (`author_data.get(...)`). -/
structure AuthorData where
  id : Option String
  displayName : String
  profileImage : String
  host : String
  web : String
deriving DecidableEq, Repr

/-- A persisted `Author` row: the fields written by the resolver, plus the
`auto_now` timestamp `updated_at`, which Django refreshes on every save
(modelled as a logical clock). -/
structure AuthorRec where
  url : String
  username : String
  displayName : String
  profileImage : String
  host : String
  web : String
  updated_at : Nat
deriving DecidableEq, Repr

/-- `display_name.lower().replace(" ", "_") if display_name else "unknown"`
(ASCII model of `str.lower`). -/
def usernameFrom (displayName : String) : String :=
  if displayName = "" then "unknown"
  else String.mk ((lowerL displayName.toList).map
    fun c => if c == ' ' then '_' else c)

/-- The `Author` row written by `update_or_create(url=normalized_url,
defaults={...})` at save instant `now`. -/
def mkAuthorRec (nurl : String) (d : AuthorData) (now : Nat) : AuthorRec :=
  ⟨nurl, usernameFrom d.displayName, d.displayName, d.profileImage, d.host,
    d.web, now⟩

/-- The canonical key of an author payload: `author_data.get("id")`,
rejected when missing or falsy, then `normalize_author_url` (`none` models
the `ValueError` escape). -/
def normalizedIdOf (d : AuthorData) : Option String :=
  match d.id with
  | none => none
  | some url => if url = "" then none else normalizeAuthorUrl url

/-- `_get_or_create_author_from_activity`: key the table on the normalized
payload id and overwrite all mutable fields (last write wins); returns the
saved row and the new table. -/
def getOrCreateAuthorFromActivity (d : AuthorData) (now : Nat)
    (store : List AuthorRec) : Option (AuthorRec × List AuthorRec) :=
  match normalizedIdOf d with
  | none => none
  | some nurl =>
    some (mkAuthorRec nurl d now,
      (updateOrCreateBy AuthorRec.url nurl (mkAuthorRec nurl d now) store).1)

/-- The entry fields read from an activity payload by
`_get_or_create_entry_from_activity`. -/
structure EntryData where
  id : Option String
  author : AuthorData
  title : String
  description : String
  content : String
  contentType : String
  visibility : String
  source : String
  origin : String
  web : String
  published : String
deriving DecidableEq, Repr

/-- A persisted `Entry` row (the fields written by the resolver, with the
author foreign key as the author's canonical URL, and the `auto_now`
timestamp). -/
structure EntryRec where
  url : String
  authorUrl : String
  title : String
  description : String
  content : String
  content_type : String
  visibility : String
  source : String
  origin : String
  web : String
  published : String
  updated_at : Nat
deriving DecidableEq, Repr

/-- The `Entry` row written by `update_or_create(url=normalized_entry_url,
defaults={...})`. -/
def mkEntryRec (nurl authorUrl : String) (ed : EntryData) (now : Nat) :
    EntryRec :=
  ⟨nurl, authorUrl, ed.title, ed.description, ed.content, ed.contentType,
    ed.visibility, ed.source, ed.origin, ed.web, ed.published, now⟩

/-- The canonical key of an entry payload (`activity_data.get("id")`,
falsy-checked, then normalized). -/
def normalizedEntryIdOf (ed : EntryData) : Option String :=
  match ed.id with
  | none => none
  | some url => if url = "" then none else normalizeAuthorUrl url

/-- `_get_or_create_entry_from_activity`: resolve the nested author first,
then key the entry table on the normalized entry id and overwrite the
mutable fields; returns the author row (the entry's `author` object), the
entry row and both tables. -/
def getOrCreateEntryFromActivity (ed : EntryData) (now : Nat)
    (authors : List AuthorRec) (entries : List EntryRec) :
    Option (AuthorRec × EntryRec × List AuthorRec × List EntryRec) :=
  match getOrCreateAuthorFromActivity ed.author now authors with
  | none => none
  | some (a, authors2) =>
    match normalizedEntryIdOf ed with
    | none => none
    | some nurl =>
      some (a, mkEntryRec nurl a.url ed now, authors2,
        (updateOrCreateBy EntryRec.url nurl (mkEntryRec nurl a.url ed now)
          entries).1)

/-- `ActivitySerializer.validate_type`: `valid_types`. -/
def validTypes : List String := ["entry", "follow", "like", "comment"]

/-- `value in valid_types`. -/
def validateType (t : String) : Bool := validTypes.contains t

/-- The three outcomes of `_post_to_inbox`: 400 (serializer rejection or
failed processing), 201 (new inbox item), 200 (duplicate ignored). -/
inductive InboxResponse where
  | badRequest
  | created
  | ok
deriving DecidableEq, Repr

/-- An `Inbox` row; `object_data` is the serialized object stored by the
endpoint (its type is the payload's serialized form). -/
structure InboxRec (σ : Type) where
  recipient : String
  activity_type : String
  object_data : σ
deriving DecidableEq, Repr

/-- `Inbox.objects.get_or_create(recipient=..., activity_type=...,
object_data=...)`: keyed on the full triple. -/
def inboxGetOrCreate {σ : Type} [DecidableEq σ] (recipient atype : String)
    (d : σ) (store : List (InboxRec σ)) : List (InboxRec σ) × Bool :=
  getOrCreateBy (fun i => (i.recipient, i.activity_type, i.object_data))
    (recipient, atype, d) ⟨recipient, atype, d⟩ store

/-- `_post_to_inbox` after recipient lookup: serializer validation of the
activity type, per-type processing (abstracted as the already-computed
`object_data?`, `none` when processing failed), then triple-keyed
`get_or_create` mapping `created` to 201 and a duplicate to 200. -/
def postToInbox {σ : Type} [DecidableEq σ] (recipient atype : String)
    (object_data? : Option σ) (store : List (InboxRec σ)) :
    InboxResponse × List (InboxRec σ) :=
  if validateType atype = false then (.badRequest, store)
  else
    match object_data? with
    | none => (.badRequest, store)
    | some d =>
      if (inboxGetOrCreate recipient atype d store).2 then
        (.created, (inboxGetOrCreate recipient atype d store).1)
      else (.ok, (inboxGetOrCreate recipient atype d store).1)

/-- The serialized author nested in an entry activity's `object_data`:
`AuthorSerializer.to_representation` is fully overridden and emits exactly
`{type, id, host, displayName, github, profileImage, web}` — in
particular no timestamp column — restricted here to the modelled
fields. -/
structure SerializedAuthor where
  id : String
  host : String
  displayName : String
  profileImage : String
  web : String
deriving DecidableEq, Repr

/-- `AuthorSerializer(author).data` (the overridden `to_representation`):
a pure function of the row's URL and profile fields, independent of the
`auto_now` `updated_at`. -/
def serializeAuthor (a : AuthorRec) : SerializedAuthor :=
  ⟨a.url, a.host, a.displayName, a.profileImage, a.web⟩

/-- The `object_data` of an entry activity: the overridden
`EntrySerializer.to_representation` restricted to the modelled fields; no
emitted field reads a row's `auto_now` timestamp (`published` comes from
the payload, and the `updated_at`-stamped `image` data-URL branch needs
`image_data`, which inbox-resolved entries never have), so the snapshot is
a pure function of the stored field values. -/
structure SerializedEntry where
  url : String
  author : SerializedAuthor
  title : String
  content : String
deriving DecidableEq, Repr

/-- `EntrySerializer(entry).data` with the nested serialized author. -/
def serializeEntry (e : EntryRec) (a : AuthorRec) : SerializedEntry :=
  ⟨e.url, serializeAuthor a, e.title, e.content⟩

/-- The full `_post_to_inbox` pipeline for a `type="entry"` activity at
save instant `now`: resolve (update-or-create) the author and the entry,
serialize, then deduplicate into the inbox. -/
def deliverEntryActivity (recipient : String) (ed : EntryData) (now : Nat)
    (authors : List AuthorRec) (entries : List EntryRec)
    (inbox : List (InboxRec SerializedEntry)) :
    InboxResponse × List AuthorRec × List EntryRec
      × List (InboxRec SerializedEntry) :=
  match getOrCreateEntryFromActivity ed now authors entries with
  | none => (.badRequest, authors, entries, inbox)
  | some (a, e, authors2, entries2) =>
    ((postToInbox recipient "entry" (some (serializeEntry e a)) inbox).1,
      authors2, entries2,
      (postToInbox recipient "entry" (some (serializeEntry e a)) inbox).2)

/-- The like lookup chain of `_process_unlike_activity`: by like uuid and
actor, then by like url and actor, then by actor and the liked entry, then
by actor and the liked comment. -/
def findLikeForUnlike (actor : String) (likeUuid? likeUrl? : Option String)
    (entryUrl? commentUrl? : Option String) (likes : List LikeRow) :
    Option LikeRow :=
  match likeUuid? with
  | some uuid =>
    match likes.find? (fun l => l.id == uuid && l.author == actor) with
    | some lk => some lk
    | none => findLikeForUnlike2 actor likeUrl? entryUrl? commentUrl? likes
  | none => findLikeForUnlike2 actor likeUrl? entryUrl? commentUrl? likes
where
  findLikeForUnlike2 (actor : String) (likeUrl? entryUrl? commentUrl? :
      Option String) (likes : List LikeRow) : Option LikeRow :=
    match likeUrl? with
    | some lurl =>
      match likes.find? (fun l => l.url == lurl && l.author == actor) with
      | some lk => some lk
      | none => findLikeForUnlike3 actor entryUrl? commentUrl? likes
    | none => findLikeForUnlike3 actor entryUrl? commentUrl? likes
  findLikeForUnlike3 (actor : String) (entryUrl? commentUrl? :
      Option String) (likes : List LikeRow) : Option LikeRow :=
    match entryUrl? with
    | some eurl =>
      match likes.find? (fun l => l.author == actor && l.entry == some eurl) with
      | some lk => some lk
      | none =>
        match commentUrl? with
        | some curl =>
          likes.find? (fun l => l.author == actor && l.comment == some curl)
        | none => none
    | none =>
      match commentUrl? with
      | some curl =>
        likes.find? (fun l => l.author == actor && l.comment == some curl)
      | none => none

/-- `_process_unlike_activity`: reject a missing/falsy object URL, then
look the like up and delete it when found; the returned flag mirrors the
`status` field of the result (`true` for `"success"`, `false` for
`"not_found_but_success"`): both are non-`None` results, i.e. reported
successes. -/
def processUnlikeActivity (actor : String) (objectUrl : String)
    (likeUuid? likeUrl? entryUrl? commentUrl? : Option String)
    (likes : List LikeRow) : Option (List LikeRow × Bool) :=
  if objectUrl = "" then none
  else
    match findLikeForUnlike actor likeUuid? likeUrl? entryUrl? commentUrl?
        likes with
    | some lk => some (likes.filter (fun l => !(l.id == lk.id)), true)
    | none => some (likes, false)

/-- A locally stored entry for the fan-out model (`Entry` rows touched by
`perform_create` / `partial_update` / `destroy`). -/
structure StoredEntry where
  id : String
  content : String
  visibility : Visibility
deriving DecidableEq, Repr

/-- `remote_author.url.rstrip('/') + '/inbox/'`. -/
def inboxUrlOf (authorUrl : String) : String :=
  String.mk (rstripSlash authorUrl.toList) ++ "/inbox/"

/-- `_send_to_remote_authors`: one POST attempt per remote author, each
wrapped in `try/except: continue`; `deliver` abstracts a single attempt's
outcome (success / failure, exceptions included). The attempt list records
which inboxes were tried and how each attempt ended. -/
def sendToRemoteAuthors (remoteAuthors : List String)
    (deliver : String → Bool) : List (String × Bool) :=
  remoteAuthors.map (fun a => (inboxUrlOf a, deliver (inboxUrlOf a)))

/-- `perform_create` followed by the fan-out: the entry is saved locally
first, then pushed; the push outcome never touches the local table. -/
def performCreateEntry (e : StoredEntry) (db : List StoredEntry)
    (remoteAuthors : List String) (deliver : String → Bool) :
    List StoredEntry × List (String × Bool) :=
  (db ++ [e], sendToRemoteAuthors remoteAuthors deliver)

/-- A local entry update followed by the fan-out. -/
def performUpdateEntry (id newContent : String) (db : List StoredEntry)
    (remoteAuthors : List String) (deliver : String → Bool) :
    List StoredEntry × List (String × Bool) :=
  (db.map (fun r => if r.id = id then ⟨r.id, newContent, r.visibility⟩ else r),
    sendToRemoteAuthors remoteAuthors deliver)

/-- `destroy`: the soft delete (visibility := DELETED, the row stays
stored) followed by the fan-out. -/
def destroyEntry (id : String) (db : List StoredEntry)
    (remoteAuthors : List String) (deliver : String → Bool) :
    List StoredEntry × List (String × Bool) :=
  (db.map (fun r => if r.id = id then ⟨r.id, r.content, Visibility.DELETED⟩ else r),
    sendToRemoteAuthors remoteAuthors deliver)

/-- What a second resolution of an author payload keyed to `nurl` does to
the table `s1` left by a first resolution: it returns the freshly written
row, overwrites in place (the table keeps its length), leaves exactly one
row for `nurl` — the incoming values (last write wins) — and preserves
key uniqueness. -/
def AuthorResolvedTwice (d2 : AuthorData) (t2 : Nat) (s1 : List AuthorRec)
    (nurl : String) : Prop :=
  getOrCreateAuthorFromActivity d2 t2 s1
      = some (mkAuthorRec nurl d2 t2,
        (updateOrCreateBy AuthorRec.url nurl (mkAuthorRec nurl d2 t2) s1).1) ∧
  (updateOrCreateBy AuthorRec.url nurl (mkAuthorRec nurl d2 t2) s1).1.length
      = s1.length ∧
  rowsBy AuthorRec.url nurl
      (updateOrCreateBy AuthorRec.url nurl (mkAuthorRec nurl d2 t2) s1).1
    = [mkAuthorRec nurl d2 t2] ∧
  ∀ k, (rowsBy AuthorRec.url k
      (updateOrCreateBy AuthorRec.url nurl (mkAuthorRec nurl d2 t2) s1).1).length ≤ 1

/-- The entry analogue of `AuthorResolvedTwice` for a second resolution of
an entry payload keyed to `nurlE` whose author payload is keyed to
`aurl2`. -/
def EntryResolvedTwice (ed2 : EntryData) (u2 : Nat) (aurl2 nurlE : String)
    (as1 : List AuthorRec) (es1 : List EntryRec) : Prop :=
  getOrCreateEntryFromActivity ed2 u2 as1 es1
      = some (mkAuthorRec aurl2 ed2.author u2,
        mkEntryRec nurlE aurl2 ed2 u2,
        (updateOrCreateBy AuthorRec.url aurl2
          (mkAuthorRec aurl2 ed2.author u2) as1).1,
        (updateOrCreateBy EntryRec.url nurlE
          (mkEntryRec nurlE aurl2 ed2 u2) es1).1) ∧
  (updateOrCreateBy EntryRec.url nurlE
      (mkEntryRec nurlE aurl2 ed2 u2) es1).1.length = es1.length ∧
  rowsBy EntryRec.url nurlE
      (updateOrCreateBy EntryRec.url nurlE
        (mkEntryRec nurlE aurl2 ed2 u2) es1).1
    = [mkEntryRec nurlE aurl2 ed2 u2] ∧
  ∀ k, (rowsBy EntryRec.url k
      (updateOrCreateBy EntryRec.url nurlE
        (mkEntryRec nurlE aurl2 ed2 u2) es1).1).length ≤ 1

/-- What the triple-keyed `get_or_create` of `_post_to_inbox` guarantees
when the key `(recipient, activity type, object data)` is not yet in the
inbox: the first delivery is a 201 that stores exactly one item for the
key, and a second delivery resolving to the same object data is a 200
no-op. -/
def InboxDedup {σ : Type} [DecidableEq σ] (recipient atype : String) (d : σ)
    (store : List (InboxRec σ)) : Prop :=
  (postToInbox recipient atype (some d) store).1 = .created ∧
  rowsBy (fun i : InboxRec σ => (i.recipient, i.activity_type, i.object_data))
      (recipient, atype, d) (postToInbox recipient atype (some d) store).2
    = [⟨recipient, atype, d⟩] ∧
  postToInbox recipient atype (some d)
      ((postToInbox recipient atype (some d) store).2)
    = (.ok, (postToInbox recipient atype (some d) store).2)

/-! ## Theorems

Proofs of the behavioural claims about the definitions above, with their
supporting lemmas.
-/

theorem pyStrLtL_irrefl (l : List Char) : pyStrLtL l l = false := by
  induction l with
  | nil => rfl
  | cons a as ih => simp [pyStrLtL, ih]

theorem pyStrLtL_asymm (l₁ l₂ : List Char) (h : pyStrLtL l₁ l₂ = true) :
    pyStrLtL l₂ l₁ = false := by
  induction l₁ generalizing l₂ with
  | nil =>
    cases l₂ with
    | nil => simp [pyStrLtL] at h
    | cons b bs => simp [pyStrLtL]
  | cons a as ih =>
    cases l₂ with
    | nil => simp [pyStrLtL] at h
    | cons b bs =>
      simp only [pyStrLtL] at h ⊢
      rcases Nat.lt_trichotomy a.toNat b.toNat with hlt | heq | hgt
      · simp [hlt, Nat.lt_asymm hlt]
      · simp only [heq, lt_irrefl, if_false] at h ⊢
        exact ih bs h
      · simp [hgt, Nat.lt_asymm hgt] at h

theorem pyStrLtL_total (l₁ l₂ : List Char) (h : l₁ ≠ l₂) :
    pyStrLtL l₁ l₂ = true ∨ pyStrLtL l₂ l₁ = true := by
  induction l₁ generalizing l₂ with
  | nil =>
    cases l₂ with
    | nil => exact absurd rfl h
    | cons b bs => left; rfl
  | cons a as ih =>
    cases l₂ with
    | nil => right; rfl
    | cons b bs =>
      simp only [pyStrLtL]
      rcases Nat.lt_trichotomy a.toNat b.toNat with hlt | heq | hgt
      · left; simp [hlt]
      · have hab : a = b := Char.ext (UInt32.ext heq)
        subst hab
        have htl : as ≠ bs := by
          intro hcontra; exact h (by rw [hcontra])
        rcases ih bs htl with h1 | h1
        · left; simp [heq, h1]
        · right; simp [h1]
      · right; simp [hgt]

theorem pyStrLt_irrefl (s : String) : pyStrLt s s = false :=
  pyStrLtL_irrefl s.toList

theorem pyStrLt_asymm (s₁ s₂ : String) (h : pyStrLt s₁ s₂ = true) :
    pyStrLt s₂ s₁ = false :=
  pyStrLtL_asymm _ _ h

theorem pyStrLt_total (s₁ s₂ : String) (h : s₁ ≠ s₂) :
    pyStrLt s₁ s₂ = true ∨ pyStrLt s₂ s₁ = true := by
  apply pyStrLtL_total
  intro hcontra
  apply h
  cases s₁; cases s₂
  simp only [String.toList] at hcontra
  exact congrArg String.mk hcontra

theorem hasAcceptedFollow_eq_any (db : DB) (a b : String) :
    hasAcceptedFollow db a b = db.follows.any (accPred a b) := rfl

theorem any_congrB {α : Type} (l : List α) (p q : α → Bool)
    (h : ∀ x ∈ l, p x = q x) : l.any p = l.any q := by
  induction l with
  | nil => rfl
  | cons x xs ih =>
    simp only [List.any_cons]
    rw [h x (by simp), ih fun y hy => h y (by simp [hy])]

theorem accPred_iff (a b : String) (r : FollowRow) :
    accPred a b r = true ↔
      r.follower = a ∧ r.followed = b ∧ r.status = FStatus.accepted := by
  simp [accPred, and_assoc]

theorem matchPred_iff (a b : String) (r : FollowRow) :
    (r.follower == a && r.followed == b) = true ↔
      r.follower = a ∧ r.followed = b := by
  simp

theorem saveRows_acc_self (a b : String) (st : FStatus) (l : List FollowRow) :
    (saveFollowRows a b st l).any (accPred a b) = (st == FStatus.accepted) := by
  unfold saveFollowRows
  split
  · rename_i h
    rw [List.any_map]
    cases hst : (st == FStatus.accepted) with
    | true =>
      rw [List.any_eq_true] at h ⊢
      obtain ⟨r, hr, hmr⟩ := h
      refine ⟨r, hr, ?_⟩
      have hmrP := (matchPred_iff a b r).mp hmr
      simp only [Function.comp]
      rw [if_pos hmr, accPred_iff]
      exact ⟨hmrP.1, hmrP.2, by simpa using hst⟩
    | false =>
      rw [List.any_eq_false]
      intro r hr
      simp only [Function.comp]
      rw [Bool.not_eq_true]
      by_cases hm : (r.follower == a && r.followed == b) = true
      · rw [if_pos hm]
        rw [Bool.eq_false_iff]
        intro hcontra
        rw [accPred_iff] at hcontra
        have : st = FStatus.accepted := hcontra.2.2
        rw [this] at hst
        simp at hst
      · rw [if_neg hm]
        rw [Bool.eq_false_iff]
        intro hcontra
        rw [accPred_iff] at hcontra
        exact hm (matchPred_iff a b r |>.mpr ⟨hcontra.1, hcontra.2.1⟩)
  · rename_i h
    rw [List.any_append]
    have hmem : ∀ r ∈ l, ¬ (r.follower == a && r.followed == b) = true := by
      intro r hr hc
      exact h (List.any_eq_true.mpr ⟨r, hr, hc⟩)
    have hl : l.any (accPred a b) = false := by
      rw [List.any_eq_false]
      intro r hr
      rw [Bool.not_eq_true, Bool.eq_false_iff]
      intro hcontra
      rw [accPred_iff] at hcontra
      exact hmem r hr (matchPred_iff a b r |>.mpr ⟨hcontra.1, hcontra.2.1⟩)
    have hone : [(⟨a, b, st⟩ : FollowRow)].any (accPred a b) = (st == FStatus.accepted) := by
      simp [accPred]
    rw [hl, hone, Bool.false_or]

theorem saveRows_acc_other (a b x y : String) (st : FStatus) (l : List FollowRow)
    (hne : ¬(x = a ∧ y = b)) :
    (saveFollowRows a b st l).any (accPred x y) = l.any (accPred x y) := by
  unfold saveFollowRows
  split
  · rw [List.any_map]
    apply any_congrB
    intro r _
    simp only [Function.comp]
    by_cases hm : (r.follower == a && r.followed == b) = true
    · rw [if_pos hm]
      rw [matchPred_iff] at hm
      have hxy : accPred x y ({ r with status := st } : FollowRow) = false := by
        rw [Bool.eq_false_iff]
        intro hcontra
        rw [accPred_iff] at hcontra
        have hc1 : r.follower = x := hcontra.1
        have hc2 : r.followed = y := hcontra.2.1
        exact hne ⟨by rw [← hc1]; exact hm.1, by rw [← hc2]; exact hm.2⟩
      have hxy' : accPred x y r = false := by
        rw [Bool.eq_false_iff]
        intro hcontra
        rw [accPred_iff] at hcontra
        exact hne ⟨by rw [← hcontra.1]; exact hm.1, by rw [← hcontra.2.1]; exact hm.2⟩
      rw [hxy, hxy']
    · rw [if_neg hm]
  · rw [List.any_append]
    have : accPred x y ⟨a, b, st⟩ = false := by
      rw [Bool.eq_false_iff]
      intro hcontra
      rw [accPred_iff] at hcontra
      have hc1 : a = x := hcontra.1
      have hc2 : b = y := hcontra.2.1
      exact hne ⟨hc1.symm, hc2.symm⟩
    simp [this]

theorem filter_acc_self (a b : String) (l : List FollowRow) :
    (l.filter fun r => !(r.follower == a && r.followed == b)).any (accPred a b)
      = false := by
  rw [List.any_eq_false]
  intro r hr
  rw [List.mem_filter] at hr
  rw [Bool.not_eq_true, Bool.eq_false_iff]
  intro hcontra
  rw [accPred_iff] at hcontra
  have h2 := hr.2
  rw [Bool.not_eq_true', Bool.and_eq_false_iff] at h2
  rcases h2 with h1 | h1
  · rw [beq_eq_false_iff_ne] at h1
    exact h1 hcontra.1
  · rw [beq_eq_false_iff_ne] at h1
    exact h1 hcontra.2.1

theorem filter_acc_other (a b x y : String) (l : List FollowRow)
    (hne : ¬(x = a ∧ y = b)) :
    (l.filter fun r => !(r.follower == a && r.followed == b)).any (accPred x y)
      = l.any (accPred x y) := by
  cases hany : l.any (accPred x y) with
  | true =>
    rw [List.any_eq_true] at hany ⊢
    obtain ⟨r, hr, hpr⟩ := hany
    refine ⟨r, List.mem_filter.mpr ⟨hr, ?_⟩, hpr⟩
    rw [accPred_iff] at hpr
    rw [Bool.not_eq_true', Bool.and_eq_false_iff]
    by_cases hxa : x = a
    · right
      rw [beq_eq_false_iff_ne, hpr.2.1]
      intro hc
      exact hne ⟨hxa, hc⟩
    · left
      rw [beq_eq_false_iff_ne, hpr.1]
      intro hc
      exact hxa hc
  | false =>
    rw [List.any_eq_false] at hany ⊢
    intro r hr
    exact hany r (List.mem_filter.mp hr).1

theorem updateFriendships_follows (a b : String) (db : DB) :
    (updateFriendships a b db).follows = db.follows := by
  unfold updateFriendships
  split
  · split
    · rfl
    · split <;> rfl
  · rfl

theorem mutual_updateFriendships (a b x y : String) (db : DB) :
    mutualAccepted (updateFriendships a b db) x y = mutualAccepted db x y := by
  unfold mutualAccepted hasAcceptedFollow
  rw [updateFriendships_follows]

theorem mem_updateFriendships_other (a b x y : String) (db : DB)
    (h1 : (x, y) ≠ (a, b)) (h2 : (x, y) ≠ (b, a)) :
    ((x, y) ∈ (updateFriendships a b db).friendships ↔ (x, y) ∈ db.friendships) := by
  unfold updateFriendships
  split
  · split
    · exact Iff.rfl
    · split
      · exact Iff.rfl
      · show (x, y) ∈ db.friendships ++ [canonPair a b] ↔ _
        rw [List.mem_append, List.mem_singleton]
        constructor
        · rintro (h | h)
          · exact h
          · exfalso
            unfold canonPair at h
            split at h
            · exact h1 h
            · exact h2 h
        · intro h
          exact Or.inl h
  · show (x, y) ∈ db.friendships.filter _ ↔ _
    rw [List.mem_filter]
    constructor
    · intro h
      exact h.1
    · intro h
      refine ⟨h, ?_⟩
      rw [Bool.not_eq_true', Bool.or_eq_false_iff]
      constructor <;> rw [beq_eq_false_iff_ne] <;> assumption

theorem updateFriendships_inv (a b : String) (db : DB)
    (hc : Canonical db)
    (hother : ∀ x y, pyStrLt x y = true → (x, y) ≠ (a, b) → (x, y) ≠ (b, a) →
      ((x, y) ∈ db.friendships ↔ mutualAccepted db x y = true)) :
    FriendInv (updateFriendships a b db) := by
  constructor
  · intro p hp
    unfold updateFriendships at hp
    split at hp
    · split at hp
      · exact hc p hp
      · split at hp
        · exact hc p hp
        · rename_i hne
          rw [show ({ db with friendships := db.friendships ++ [canonPair a b] } :
              DB).friendships = db.friendships ++ [canonPair a b] from rfl,
            List.mem_append, List.mem_singleton] at hp
          rcases hp with hp | hp
          · exact hc p hp
          · subst hp
            rw [Bool.not_eq_true, beq_eq_false_iff_ne] at hne
            unfold canonPair at hne ⊢
            by_cases hlt : pyStrLt a b = true
            · rw [if_pos hlt]
              exact hlt
            · rw [if_neg hlt] at hne ⊢
              have hba : b ≠ a := hne
              rcases pyStrLt_total b a hba with h | h
              · exact h
              · exact absurd h hlt
    · rw [show ({ db with friendships := db.friendships.filter _ } :
        DB).friendships = db.friendships.filter _ from rfl, List.mem_filter] at hp
      exact hc p hp.1
  · intro x y hxy
    rw [mutual_updateFriendships]
    by_cases hcase : (x, y) = (a, b) ∨ (x, y) = (b, a)
    · have hxney : x ≠ y := by
        intro h
        subst h
        rw [pyStrLt_irrefl] at hxy
        exact Bool.false_ne_true hxy
      have hmeq : mutualAccepted db x y = mutualAccepted db a b := by
        rcases hcase with h | h
        · rw [Prod.mk.injEq] at h
          rw [h.1, h.2]
        · rw [Prod.mk.injEq] at h
          rw [h.1, h.2]
          unfold mutualAccepted
          exact Bool.and_comm _ _
      rw [hmeq]
      have hpair : canonPair a b = (x, y) := by
        unfold canonPair
        rcases hcase with h | h
        · rw [Prod.mk.injEq] at h
          by_cases hlt : pyStrLt a b = true
          · rw [if_pos hlt, ← h.1, ← h.2]
          · exfalso
            rw [h.1, h.2] at hxy
            exact hlt hxy
        · rw [Prod.mk.injEq] at h
          by_cases hlt : pyStrLt a b = true
          · exfalso
            rw [h.1, h.2] at hxy
            have hfd := pyStrLt_asymm a b hlt
            rw [hxy] at hfd
            simp at hfd
          · rw [if_neg hlt, ← h.1, ← h.2]
      unfold updateFriendships
      rw [hpair]
      split
      · rename_i hmut
        split
        · rename_i hcont
          constructor
          · intro _
            exact hmut
          · intro _
            exact List.mem_of_elem_eq_true hcont
        · split
          · rename_i hself
            exfalso
            exact hxney (by simpa using hself)
          · show (x, y) ∈ db.friendships ++ [(x, y)] ↔ _
            rw [List.mem_append, List.mem_singleton]
            constructor
            · intro _
              exact hmut
            · intro _
              exact Or.inr rfl
      · rename_i hmut
        rw [Bool.not_eq_true] at hmut
        have hrhs : mutualAccepted db a b = false := hmut
        rw [hrhs]
        show (x, y) ∈ db.friendships.filter _ ↔ _
        rw [List.mem_filter]
        constructor
        · intro h
          exfalso
          have h2 := h.2
          rw [Bool.not_eq_true', Bool.or_eq_false_iff, beq_eq_false_iff_ne,
            beq_eq_false_iff_ne] at h2
          rcases hcase with hx | hx
          · exact h2.1 hx
          · exact h2.2 hx
        · intro h
          exact absurd h (by simp)
    · push_neg at hcase
      rw [mem_updateFriendships_other a b x y db hcase.1 hcase.2]
      exact hother x y hxy hcase.1 hcase.2

theorem mutual_withFollows (db : DB) (L : List FollowRow) (x y : String) :
    mutualAccepted { db with follows := L } x y
      = (L.any (accPred x y) && L.any (accPred y x)) := rfl

theorem mutual_eq_any (db : DB) (x y : String) :
    mutualAccepted db x y
      = (db.follows.any (accPred x y) && db.follows.any (accPred y x)) := rfl

theorem followMutationKeepsFriendInv (db : DB) (h : FriendInv db)
    (op : FollowOp) (hop : OpAllowed db op) :
    FriendInv (applyOp op db) := by
  obtain ⟨hcan, hiff⟩ := h
  cases op with
  | save a b st =>
    show FriendInv (saveFollow a b st db)
    unfold saveFollow
    by_cases hacc : st = FStatus.accepted
    · rw [if_pos hacc]
      apply updateFriendships_inv
      · intro p hp
        exact hcan p hp
      · intro x y hxy hne1 hne2
        have hxab : ¬(x = a ∧ y = b) := fun hcon => hne1 (by rw [hcon.1, hcon.2])
        have hyab : ¬(y = a ∧ x = b) := fun hcon => hne2 (by rw [hcon.1, hcon.2])
        have hm : mutualAccepted
            { db with follows := saveFollowRows a b st db.follows } x y
            = mutualAccepted db x y := by
          rw [mutual_withFollows, saveRows_acc_other a b x y st db.follows hxab,
            saveRows_acc_other a b y x st db.follows hyab, mutual_eq_any]
        rw [hm]
        exact hiff x y hxy
    · rw [if_neg hacc]
      have hnacc : hasAcceptedFollow db a b = false := by
        rcases hop with hst | hnacc
        · exact absurd hst hacc
        · exact hnacc
      have hstf : (st == FStatus.accepted) = false := by
        rw [beq_eq_false_iff_ne]
        exact hacc
      constructor
      · intro p hp
        exact hcan p hp
      · intro x y hxy
        by_cases h1 : (x, y) = (a, b)
        · rw [Prod.mk.injEq] at h1
          obtain ⟨h1a, h1b⟩ := h1
          subst h1a
          subst h1b
          have hL : (x, y) ∉ db.friendships := by
            intro hmem
            have hmm := (hiff x y hxy).mp hmem
            unfold mutualAccepted at hmm
            rw [Bool.and_eq_true] at hmm
            rw [hnacc] at hmm
            exact Bool.false_ne_true hmm.1
          have hR : mutualAccepted
              { db with follows := saveFollowRows x y st db.follows } x y = false := by
            rw [mutual_withFollows, saveRows_acc_self, hstf, Bool.false_and]
          rw [hR]
          simp only [Bool.false_eq_true, iff_false]
          exact hL
        · by_cases h2 : (x, y) = (b, a)
          · rw [Prod.mk.injEq] at h2
            obtain ⟨h2a, h2b⟩ := h2
            subst h2a
            subst h2b
            have hL : (x, y) ∉ db.friendships := by
              intro hmem
              have hmm := (hiff x y hxy).mp hmem
              unfold mutualAccepted at hmm
              rw [Bool.and_eq_true] at hmm
              rw [hnacc] at hmm
              exact Bool.false_ne_true hmm.2
            have hR : mutualAccepted
                { db with follows := saveFollowRows y x st db.follows } x y = false := by
              rw [mutual_withFollows, saveRows_acc_self, hstf, Bool.and_false]
            rw [hR]
            simp only [Bool.false_eq_true, iff_false]
            exact hL
          · have hxab : ¬(x = a ∧ y = b) := fun hcon => h1 (by rw [hcon.1, hcon.2])
            have hyab : ¬(y = a ∧ x = b) := fun hcon => h2 (by rw [hcon.1, hcon.2])
            have hm : mutualAccepted
                { db with follows := saveFollowRows a b st db.follows } x y
                = mutualAccepted db x y := by
              rw [mutual_withFollows, saveRows_acc_other a b x y st db.follows hxab,
                saveRows_acc_other a b y x st db.follows hyab, mutual_eq_any]
            rw [hm]
            exact hiff x y hxy
  | del a b =>
    show FriendInv (deleteFollow a b db)
    unfold deleteFollow
    split
    · apply updateFriendships_inv
      · intro p hp
        exact hcan p hp
      · intro x y hxy hne1 hne2
        have hxab : ¬(x = a ∧ y = b) := fun hcon => hne1 (by rw [hcon.1, hcon.2])
        have hyab : ¬(y = a ∧ x = b) := fun hcon => hne2 (by rw [hcon.1, hcon.2])
        have hm : mutualAccepted
            { db with follows := db.follows.filter fun r => !(r.follower == a && r.followed == b) } x y
            = mutualAccepted db x y := by
          rw [mutual_withFollows, filter_acc_other a b x y db.follows hxab,
            filter_acc_other a b y x db.follows hyab, mutual_eq_any]
        rw [hm]
        exact hiff x y hxy
    · exact ⟨hcan, hiff⟩

theorem friendInv_unordered (db : DB) (h : FriendInv db) (a b : String)
    (hne : a ≠ b) :
    friendRowExists db a b = mutualAccepted db a b := by
  obtain ⟨hcan, hiff⟩ := h
  have contains_eq : ∀ x y : String, pyStrLt x y = true →
      db.friendships.contains (x, y) = mutualAccepted db x y := by
    intro x y hxy
    cases hm : mutualAccepted db x y with
    | true =>
      exact List.elem_eq_true_of_mem ((hiff x y hxy).mpr hm)
    | false =>
      cases hc : db.friendships.contains (x, y) with
      | true =>
        have := (hiff x y hxy).mp (List.mem_of_elem_eq_true hc)
        rw [this] at hm
        simp at hm
      | false => rfl
  have contains_bad : ∀ x y : String, pyStrLt x y = true →
      db.friendships.contains (y, x) = false := by
    intro x y hxy
    cases hc : db.friendships.contains (y, x) with
    | true =>
      have hmem := List.mem_of_elem_eq_true hc
      have := hcan (y, x) hmem
      have h2 := pyStrLt_asymm x y hxy
      rw [this] at h2
      simp at h2
    | false => rfl
  unfold friendRowExists
  rcases pyStrLt_total a b hne with hlt | hlt
  · rw [contains_eq a b hlt, contains_bad a b hlt, Bool.or_false]
  · rw [contains_eq b a hlt, contains_bad b a hlt, Bool.false_or]
    unfold mutualAccepted
    exact Bool.and_comm _ _

/-- C1 (counterexample): the invariant as stated fails after a Follow *status
update*. Starting from an empty store: save Follow(a→b, ACCEPTED), save
Follow(b→a, ACCEPTED) — the friendship row (a, b) is created — then save
Follow(a→b, REJECTED). The `post_save` handler only runs the maintainer when
the saved status is ACCEPTED, so the friendship row survives although
mutual acceptance no longer holds.
-/
theorem c1_friendship_counterexample :
    friendRowExists
      (applyOp (.save "a" "b" FStatus.rejected)
        (applyOp (.save "b" "a" FStatus.accepted)
          (applyOp (.save "a" "b" FStatus.accepted) ⟨[], []⟩))) "a" "b" = true ∧
    mutualAccepted
      (applyOp (.save "a" "b" FStatus.rejected)
        (applyOp (.save "b" "a" FStatus.accepted)
          (applyOp (.save "a" "b" FStatus.accepted) ⟨[], []⟩))) "a" "b" = false := by
  decide

/-- C1 (amended): the friendship invariant — a friendship row for the unordered
pair of two distinct authors exists iff both follow directions are ACCEPTED
— is preserved by every Follow creation, every Follow deletion, and every
Follow save whose resulting status is ACCEPTED. (It is *not* preserved by a
save that moves an existing ACCEPTED follow to a non-ACCEPTED status; see
the counterexample.)
-/
theorem c1_friendship_invariant (db : DB) (h : FriendInv db)
    (op : FollowOp) (hop : OpAllowed db op) :
    FriendInv (applyOp op db) ∧
    ∀ a b : String, a ≠ b →
      friendRowExists (applyOp op db) a b = mutualAccepted (applyOp op db) a b := by
  have h' := followMutationKeepsFriendInv db h op hop
  exact ⟨h', fun a b hne => friendInv_unordered _ h' a b hne⟩

theorem emptyDB_friendInv : FriendInv ⟨[], []⟩ := by
  constructor
  · intro p hp
    simp at hp
  · intro a b _
    constructor
    · intro hmem
      simp at hmem
    · intro hmm
      simp [mutualAccepted, hasAcceptedFollow] at hmm

/-- C1 witness: the amended theorem applied to the empty store and the
mutation save Follow(a→b, ACCEPTED). -/
theorem c1_friendship_invariant_witness :
    FriendInv (applyOp (.save "a" "b" FStatus.accepted) ⟨[], []⟩) ∧
    ∀ a b : String, a ≠ b →
      friendRowExists (applyOp (.save "a" "b" FStatus.accepted) ⟨[], []⟩) a b
        = mutualAccepted (applyOp (.save "a" "b" FStatus.accepted) ⟨[], []⟩) a b :=
  c1_friendship_invariant ⟨[], []⟩ emptyDB_friendInv
    (.save "a" "b" FStatus.accepted) (Or.inl rfl)

theorem noSelf_updateFriendships (a b : String) (db : DB)
    (h : NoSelfFriendship db) : NoSelfFriendship (updateFriendships a b db) := by
  intro p hp
  unfold updateFriendships at hp
  split at hp
  · split at hp
    · exact h p hp
    · split at hp
      · exact h p hp
      · rename_i hne
        rw [show ({ db with friendships := db.friendships ++ [canonPair a b] } :
            DB).friendships = db.friendships ++ [canonPair a b] from rfl,
          List.mem_append, List.mem_singleton] at hp
        rcases hp with hp | hp
        · exact h p hp
        · subst hp
          rw [Bool.not_eq_true, beq_eq_false_iff_ne] at hne
          exact hne
  · rw [show ({ db with friendships := db.friendships.filter _ } :
      DB).friendships = db.friendships.filter _ from rfl, List.mem_filter] at hp
    exact h p hp.1

/-- C10: starting from any store with no self-friendship row, no sequence of
Follow mutations can ever store one — in particular saving an accepted
self-follow Follow(a→a, ACCEPTED) makes both directions of
`update_friendships` hold, but the `no_self_friendship` check constraint
rejects the insert at write time, so every friendship row keeps
`author1 ≠ author2`.
-/
theorem c10_no_self_friendship (db : DB) (h : NoSelfFriendship db)
    (ops : List FollowOp) :
    NoSelfFriendship (ops.foldl (fun s o => applyOp o s) db) := by
  induction ops generalizing db with
  | nil => exact h
  | cons op rest ih =>
    apply ih
    cases op with
    | save a b st =>
      show NoSelfFriendship (saveFollow a b st db)
      unfold saveFollow
      split
      · exact noSelf_updateFriendships a b _ (fun p hp => h p hp)
      · exact fun p hp => h p hp
    | del a b =>
      show NoSelfFriendship (deleteFollow a b db)
      unfold deleteFollow
      split
      · exact noSelf_updateFriendships a b _ (fun p hp => h p hp)
      · exact h

/-- C10 witness: even the mutation sequence that accepts a self-follow
Follow(a→a, ACCEPTED) stores no self-friendship row. -/
theorem c10_no_self_friendship_witness :
    NoSelfFriendship
      (([FollowOp.save "a" "a" FStatus.accepted]).foldl (fun s o => applyOp o s) ⟨[], []⟩) :=
  c10_no_self_friendship ⟨[], []⟩ (fun p hp => by simp at hp)
    [FollowOp.save "a" "a" FStatus.accepted]

theorem friendshipExistsB_iff (db : DB) (v a : String) :
    friendshipExistsB db v a = true ↔
      ((v, a) ∈ db.friendships ∨ (a, v) ∈ db.friendships) := by
  unfold friendshipExistsB
  rw [List.any_eq_true]
  constructor
  · rintro ⟨p, hp, hpb⟩
    rw [Bool.or_eq_true, Bool.and_eq_true, Bool.and_eq_true] at hpb
    rcases hpb with ⟨h1, h2⟩ | ⟨h1, h2⟩
    · left
      rw [beq_iff_eq] at h1 h2
      have : p = (v, a) := Prod.ext h1 h2
      rw [← this]
      exact hp
    · right
      rw [beq_iff_eq] at h1 h2
      have : p = (a, v) := Prod.ext h1 h2
      rw [← this]
      exact hp
  · rintro (hmem | hmem)
    · exact ⟨(v, a), hmem, by simp⟩
    · exact ⟨(a, v), hmem, by simp⟩

/-- C6 (counterexample): an UNLISTED entry is *not* made visible by
`visible_to_author` to an anonymous viewer (the anonymous branch admits only
PUBLIC), nor to an authenticated viewer unrelated to the author.
-/
theorem c6_unlisted_counterexample :
    visibleToAuthor none ⟨"a", Visibility.UNLISTED⟩ ⟨[], []⟩ = false ∧
    visibleToAuthor (some "c") ⟨"a", Visibility.UNLISTED⟩ ⟨[], []⟩ = false := by
  decide

/-- C6 (amended): under `visible_to_author` an UNLISTED entry is invisible to an
anonymous viewer, and visible to an authenticated viewer exactly when the
viewer is the entry's author, follows the author with ACCEPTED status, or
has a friendship row with the author.
-/
theorem c6_unlisted_visibility (e : EntryRow) (db : DB)
    (h : e.visibility = Visibility.UNLISTED) :
    visibleToAuthor none e db = false ∧
    ∀ v : String,
      (visibleToAuthor (some v) e db = true ↔
        (e.author = v ∨ hasAcceptedFollow db v e.author = true
          ∨ friendshipExistsB db v e.author = true)) := by
  obtain ⟨ea, ev⟩ := e
  simp only at h
  subst h
  constructor
  · rfl
  · intro v
    simp [visibleToAuthor, or_assoc]

/-- C6 witness: concrete instance — an UNLISTED entry by author a, with
viewer b following a (ACCEPTED): invisible anonymously, visible to b. -/
theorem c6_unlisted_visibility_witness :
    visibleToAuthor none ⟨"a", Visibility.UNLISTED⟩
      ⟨[⟨"b", "a", FStatus.accepted⟩], []⟩ = false ∧
    visibleToAuthor (some "b") ⟨"a", Visibility.UNLISTED⟩
      ⟨[⟨"b", "a", FStatus.accepted⟩], []⟩ = true := by
  have h := c6_unlisted_visibility ⟨"a", Visibility.UNLISTED⟩
    ⟨[⟨"b", "a", FStatus.accepted⟩], []⟩ rfl
  exact ⟨h.1, (h.2 "b").mpr (Or.inr (Or.inl (by decide)))⟩

/-- C7: visibility scenarios of `visible_to_author`. A PUBLIC entry is visible
anonymously; a FRIENDS entry is invisible to an authenticated non-author
viewer with no friendship row with the author, becomes visible once a
friendship row (either order) exists, and is never visible anonymously; a
DELETED entry is invisible to every viewer, the author included.
-/
theorem c7_visibility_scenarios (e : EntryRow) (db : DB) (v : String) :
    (e.visibility = Visibility.PUBLIC → visibleToAuthor none e db = true) ∧
    (e.visibility = Visibility.FRIENDS → v ≠ e.author →
      ¬((v, e.author) ∈ db.friendships ∨ (e.author, v) ∈ db.friendships) →
      visibleToAuthor (some v) e db = false) ∧
    (e.visibility = Visibility.FRIENDS →
      ((v, e.author) ∈ db.friendships ∨ (e.author, v) ∈ db.friendships) →
      visibleToAuthor (some v) e db = true) ∧
    (e.visibility = Visibility.FRIENDS → visibleToAuthor none e db = false) ∧
    (e.visibility = Visibility.DELETED →
      ∀ w : Option String, visibleToAuthor w e db = false) := by
  obtain ⟨ea, ev⟩ := e
  refine ⟨?_, ?_, ?_, ?_, ?_⟩
  · intro h
    simp only at h
    subst h
    rfl
  · intro h hva hnf
    simp only at h
    subst h
    have hf : friendshipExistsB db v ea = false := by
      rw [← Bool.not_eq_true, friendshipExistsB_iff]
      exact hnf
    simp [visibleToAuthor, hf]
    exact fun hcontra => hva hcontra.symm
  · intro h hmem
    simp only at h
    subst h
    have hf : friendshipExistsB db v ea = true := (friendshipExistsB_iff db v ea).mpr hmem
    simp [visibleToAuthor, hf]
  · intro h
    simp only at h
    subst h
    rfl
  · intro h w
    simp only at h
    subst h
    cases w with
    | none => rfl
    | some u => simp [visibleToAuthor]

/-- C7 witness: the scenarios discharged at concrete entries and stores —
PUBLIC visible anonymously; FRIENDS invisible to the unrelated viewer v,
visible once the friendship row (a, v) exists, invisible anonymously;
DELETED invisible to its own author. -/
theorem c7_visibility_scenarios_witness :
    visibleToAuthor none ⟨"a", Visibility.PUBLIC⟩ ⟨[], []⟩ = true ∧
    visibleToAuthor (some "v") ⟨"a", Visibility.FRIENDS⟩ ⟨[], []⟩ = false ∧
    visibleToAuthor (some "v") ⟨"a", Visibility.FRIENDS⟩ ⟨[], [("a", "v")]⟩ = true ∧
    visibleToAuthor none ⟨"a", Visibility.FRIENDS⟩ ⟨[], []⟩ = false ∧
    visibleToAuthor (some "a") ⟨"a", Visibility.DELETED⟩ ⟨[], []⟩ = false := by
  refine ⟨?_, ?_, ?_, ?_, ?_⟩
  · exact (c7_visibility_scenarios ⟨"a", Visibility.PUBLIC⟩ ⟨[], []⟩ "v").1 rfl
  · exact (c7_visibility_scenarios ⟨"a", Visibility.FRIENDS⟩ ⟨[], []⟩ "v").2.1 rfl
      (by decide) (by simp)
  · exact (c7_visibility_scenarios ⟨"a", Visibility.FRIENDS⟩ ⟨[], [("a", "v")]⟩ "v").2.2.1 rfl
      (Or.inr (by simp))
  · exact (c7_visibility_scenarios ⟨"a", Visibility.FRIENDS⟩ ⟨[], []⟩ "v").2.2.2.1 rfl
  · exact (c7_visibility_scenarios ⟨"a", Visibility.DELETED⟩ ⟨[], []⟩ "v").2.2.2.2 rfl
      (some "a")

theorem countEntryLikes_append (s : List LikeRow) (l : LikeRow) (a t : String) :
    countEntryLikes (s ++ [l]) a t
      = countEntryLikes s a t
        + countEntryLikes [l] a t := by
  unfold countEntryLikes
  rw [List.filter_append, List.length_append]

theorem countCommentLikes_append (s : List LikeRow) (l : LikeRow) (a t : String) :
    countCommentLikes (s ++ [l]) a t
      = countCommentLikes s a t
        + countCommentLikes [l] a t := by
  unfold countCommentLikes
  rw [List.filter_append, List.length_append]

/-- C8: a Like with both targets, or with neither, fails at write time and is
never stored; and a successful write preserves the invariant that every
stored Like targets exactly one of Entry / Comment with at most one Like
per (author, target).
-/
theorem c8_like_exclusivity (l : LikeRow) (store : List LikeRow) :
    (l.entry.isSome = true → l.comment.isSome = true →
      createLike l store = .error "like_single_target") ∧
    (l.entry = none → l.comment = none →
      createLike l store = .error "like_has_target") ∧
    (∀ store', LikeInv store → createLike l store = .ok store' → LikeInv store') := by
  refine ⟨?_, ?_, ?_⟩
  · intro he hc
    unfold createLike
    rw [he, hc]
    rfl
  · intro he hc
    unfold createLike
    rw [he, hc]
    rfl
  · intro store' hinv hok
    unfold createLike at hok
    split at hok
    · exact absurd hok (by simp)
    · split at hok
      · exact absurd hok (by simp)
      · split at hok
        · exact absurd hok (by simp)
        · split at hok
          · exact absurd hok (by simp)
          · split at hok
            · exact absurd hok (by simp)
            · split at hok
              · exact absurd hok (by simp)
              · rename_i htarget hsingle hue huc _ _
                rw [Except.ok.injEq] at hok
                subst hok
                obtain ⟨hrows, hce, hcc⟩ := hinv
                refine ⟨?_, ?_, ?_⟩
                · intro r hr
                  rw [List.mem_append, List.mem_singleton] at hr
                  rcases hr with hr | hr
                  · exact hrows r hr
                  · subst hr
                    constructor
                    · cases he : r.entry.isSome <;> cases hc : r.comment.isSome <;>
                        simp_all
                    · intro hcontra
                      rw [hcontra.1, hcontra.2] at hsingle
                      exact hsingle rfl
                · intro a t
                  rw [countEntryLikes_append]
                  by_cases hmatch : (l.author == a && l.entry == some t) = true
                  · have hm := hmatch
                    rw [Bool.and_eq_true, beq_iff_eq, beq_iff_eq] at hm
                    have hnew : countEntryLikes [l] a t = 1 := by
                      unfold countEntryLikes
                      rw [List.filter_singleton, hmatch]
                      rfl
                    have hold : countEntryLikes store a t = 0 := by
                      unfold countEntryLikes
                      rw [List.length_eq_zero, List.filter_eq_nil_iff]
                      intro r hr hcontra
                      rw [Bool.and_eq_true, beq_iff_eq, beq_iff_eq] at hcontra
                      rw [Bool.not_eq_true, List.any_eq_false] at hue
                      exact hue r hr (by simp [hm.1, hm.2, hcontra.1, hcontra.2])
                    rw [hnew, hold]
                  · have hmf : (l.author == a && l.entry == some t) = false := by
                      rwa [Bool.not_eq_true] at hmatch
                    have hnew : countEntryLikes [l] a t = 0 := by
                      unfold countEntryLikes
                      rw [List.filter_singleton, hmf]
                      rfl
                    rw [hnew, Nat.add_zero]
                    exact hce a t
                · intro a t
                  rw [countCommentLikes_append]
                  by_cases hmatch : (l.author == a && l.comment == some t) = true
                  · have hm := hmatch
                    rw [Bool.and_eq_true, beq_iff_eq, beq_iff_eq] at hm
                    have hnew : countCommentLikes [l] a t = 1 := by
                      unfold countCommentLikes
                      rw [List.filter_singleton, hmatch]
                      rfl
                    have hold : countCommentLikes store a t = 0 := by
                      unfold countCommentLikes
                      rw [List.length_eq_zero, List.filter_eq_nil_iff]
                      intro r hr hcontra
                      rw [Bool.and_eq_true, beq_iff_eq, beq_iff_eq] at hcontra
                      rw [Bool.not_eq_true, List.any_eq_false] at huc
                      exact huc r hr (by simp [hm.1, hm.2, hcontra.1, hcontra.2])
                    rw [hnew, hold]
                  · have hmf : (l.author == a && l.comment == some t) = false := by
                      rwa [Bool.not_eq_true] at hmatch
                    have hnew : countCommentLikes [l] a t = 0 := by
                      unfold countCommentLikes
                      rw [List.filter_singleton, hmf]
                      rfl
                    rw [hnew, Nat.add_zero]
                    exact hcc a t

/-- C8 witness: both constraint rejections and one successful insert
preserving the invariant, at concrete rows. -/
theorem c8_like_exclusivity_witness :
    createLike ⟨"i1", "u1", "a", some "e", some "c"⟩ [] = .error "like_single_target" ∧
    createLike ⟨"i1", "u1", "a", none, none⟩ [] = .error "like_has_target" ∧
    LikeInv [⟨"i1", "u1", "a", some "e", none⟩] := by
  refine ⟨?_, ?_, ?_⟩
  · exact (c8_like_exclusivity ⟨"i1", "u1", "a", some "e", some "c"⟩ []).1 rfl rfl
  · exact (c8_like_exclusivity ⟨"i1", "u1", "a", none, none⟩ []).2.1 rfl rfl
  · refine (c8_like_exclusivity ⟨"i1", "u1", "a", some "e", none⟩ []).2.2
      [⟨"i1", "u1", "a", some "e", none⟩] ?_ rfl
    refine ⟨?_, ?_, ?_⟩
    · intro r hr
      simp at hr
    · intro a t
      simp [countEntryLikes]
    · intro a t
      simp [countCommentLikes]

theorem char_eq_iff_toNat (c d : Char) : c = d ↔ c.toNat = d.toNat :=
  ⟨fun h => congrArg Char.toNat h, fun h => Char.ext (UInt32.ext h)⟩

theorem uint32_le_iff (a b : UInt32) : (a ≤ b) ↔ a.toNat ≤ b.toNat := Iff.rfl

theorem isLower_iff (c : Char) :
    c.isLower = true ↔ (97 ≤ c.toNat ∧ c.toNat ≤ 122) := by
  unfold Char.isLower
  simp only [Bool.and_eq_true, decide_eq_true_iff, ge_iff_le]
  rw [uint32_le_iff, uint32_le_iff]
  exact Iff.rfl

theorem isUpper_iff (c : Char) :
    c.isUpper = true ↔ (65 ≤ c.toNat ∧ c.toNat ≤ 90) := by
  unfold Char.isUpper
  simp only [Bool.and_eq_true, decide_eq_true_iff, ge_iff_le]
  rw [uint32_le_iff, uint32_le_iff]
  exact Iff.rfl

theorem isDigit_iff (c : Char) :
    c.isDigit = true ↔ (48 ≤ c.toNat ∧ c.toNat ≤ 57) := by
  unfold Char.isDigit
  simp only [Bool.and_eq_true, decide_eq_true_iff, ge_iff_le]
  rw [uint32_le_iff, uint32_le_iff]
  exact Iff.rfl

theorem isAlpha_iff (c : Char) :
    c.isAlpha = true ↔ ((65 ≤ c.toNat ∧ c.toNat ≤ 90) ∨ (97 ≤ c.toNat ∧ c.toNat ≤ 122)) := by
  unfold Char.isAlpha
  rw [Bool.or_eq_true, isUpper_iff, isLower_iff]

theorem schemeChar_iff (c : Char) :
    schemeChar c = true ↔
      ((65 ≤ c.toNat ∧ c.toNat ≤ 90) ∨ (97 ≤ c.toNat ∧ c.toNat ≤ 122)
        ∨ (48 ≤ c.toNat ∧ c.toNat ≤ 57)
        ∨ c.toNat = 43 ∨ c.toNat = 45 ∨ c.toNat = 46) := by
  unfold schemeChar
  simp only [Bool.or_eq_true, isAlpha_iff, isDigit_iff, beq_iff_eq,
    char_eq_iff_toNat, show ('+' : Char).toNat = 43 from rfl,
    show ('-' : Char).toNat = 45 from rfl, show ('.' : Char).toNat = 46 from rfl]
  tauto

theorem toNat_ofNat_lt (n : Nat) (h : n < 55296) : (Char.ofNat n).toNat = n := by
  unfold Char.ofNat
  rw [dif_pos]
  · rfl
  · exact Or.inl h

theorem lowerChar_cases (c : Char) :
    (97 ≤ (lowerChar c).toNat ∧ (lowerChar c).toNat ≤ 122) ∨ lowerChar c = c := by
  unfold lowerChar
  split
  · rename_i h
    left
    rw [toNat_ofNat_lt _ (by omega)]
    omega
  · right
    rfl

theorem lowerChar_fix (c : Char) (h : ¬(65 ≤ c.toNat ∧ c.toNat ≤ 90)) :
    lowerChar c = c := by
  unfold lowerChar
  rw [if_neg h]

theorem lowerChar_idem (c : Char) : lowerChar (lowerChar c) = lowerChar c := by
  rcases lowerChar_cases c with ⟨h1, h2⟩ | h
  · exact lowerChar_fix _ (by omega)
  · rw [h, h]

theorem lowerL_idem (l : List Char) : lowerL (lowerL l) = lowerL l := by
  unfold lowerL
  rw [List.map_map]
  apply List.map_congr_left
  intro c _
  exact lowerChar_idem c

/-- Lowercasing never produces a character outside the lowercase-letter
range unless it returns its argument unchanged. -/
theorem lowerChar_ne (c d : Char) (hd : d.toNat < 97 ∨ 122 < d.toNat)
    (hne : c ≠ d) : lowerChar c ≠ d := by
  intro h
  rcases lowerChar_cases c with ⟨h1, h2⟩ | hfix
  · rw [h] at h1 h2
    omega
  · rw [hfix] at h
    exact hne h

theorem lowerChar_isAlpha (c : Char) (h : c.isAlpha = true) :
    (lowerChar c).isAlpha = true := by
  rcases lowerChar_cases c with ⟨h1, h2⟩ | hfix
  · rw [isAlpha_iff]
    right
    exact ⟨h1, h2⟩
  · rw [hfix]
    exact h

theorem lowerChar_schemeChar (c : Char) (h : schemeChar c = true) :
    schemeChar (lowerChar c) = true := by
  rcases lowerChar_cases c with ⟨h1, h2⟩ | hfix
  · rw [schemeChar_iff]
    right
    left
    exact ⟨h1, h2⟩
  · rw [hfix]
    exact h

theorem schemeChar_props (c : Char) (h : schemeChar c = true) :
    c.toNat ≠ 58 ∧ 33 ≤ c.toNat ∧ c.toNat ≤ 122 := by
  rw [schemeChar_iff] at h
  rcases h with h | h | h | h | h | h <;> omega

theorem splitFirst_none (p : Char → Bool) (l : List Char)
    (h : ∀ c ∈ l, p c = false) : splitFirst p l = (l, none) := by
  induction l with
  | nil => rfl
  | cons c cs ih =>
    have hc : p c = false := h c (by simp)
    have ih2 := ih fun x hx => h x (by simp [hx])
    simp [splitFirst, hc, ih2]

theorem splitFirst_append (p : Char → Bool) (a b : List Char) (sep : Char)
    (ha : ∀ c ∈ a, p c = false) (hsep : p sep = true) :
    splitFirst p (a ++ sep :: b) = (a, some b) := by
  induction a with
  | nil =>
    simp [splitFirst, hsep]
  | cons c cs ih =>
    have hc : p c = false := ha c (by simp)
    have ih2 := ih fun x hx => ha x (by simp [hx])
    simp [splitFirst, hc, ih2]

theorem mem_splitFirst_fst (p : Char → Bool) (l : List Char) (x : Char)
    (hx : x ∈ (splitFirst p l).1) : x ∈ l ∧ p x = false := by
  induction l with
  | nil => simp [splitFirst] at hx
  | cons c cs ih =>
    unfold splitFirst at hx
    by_cases hc : p c = true
    · rw [if_pos hc] at hx
      simp at hx
    · rw [if_neg hc] at hx
      simp only [List.mem_cons] at hx
      rcases hx with hx | hx
      · subst hx
        exact ⟨by simp, Bool.eq_false_iff.mpr hc⟩
      · obtain ⟨h1, h2⟩ := ih hx
        exact ⟨by simp [h1], h2⟩

theorem mem_splitFirst_snd (p : Char → Bool) (l r : List Char) (x : Char)
    (hr : (splitFirst p l).2 = some r) (hx : x ∈ r) : x ∈ l := by
  induction l generalizing r with
  | nil => simp [splitFirst] at hr
  | cons c cs ih =>
    unfold splitFirst at hr
    by_cases hc : p c = true
    · rw [if_pos hc] at hr
      simp only [Option.some.injEq] at hr
      subst hr
      simp [hx]
    · rw [if_neg hc] at hr
      simp only [] at hr
      exact List.mem_cons.mpr (Or.inr (ih r hr hx))

theorem splitLastChar_none (ch : Char) (l : List Char)
    (h : ∀ c ∈ l, c ≠ ch) : splitLastChar ch l = none := by
  induction l with
  | nil => rfl
  | cons c cs ih =>
    have hc : (c == ch) = false := by
      rw [beq_eq_false_iff_ne]
      exact h c (by simp)
    have ih2 := ih fun x hx => h x (by simp [hx])
    simp [splitLastChar, hc, ih2]

theorem splitLastChar_append (ch : Char) (a b : List Char)
    (hb : ∀ c ∈ b, c ≠ ch) :
    splitLastChar ch (a ++ ch :: b) = some (a, b) := by
  induction a with
  | nil =>
    simp [splitLastChar, splitLastChar_none ch b hb]
  | cons c cs ih =>
    simp [splitLastChar, ih]

theorem mem_takeWhileL (p : Char → Bool) (l : List Char) (x : Char)
    (hx : x ∈ l.takeWhile p) : x ∈ l := by
  induction l with
  | nil => simp at hx
  | cons c cs ih =>
    rw [List.takeWhile_cons] at hx
    by_cases hc : p c = true
    · rw [if_pos hc] at hx
      simp only [List.mem_cons] at hx
      rcases hx with hx | hx
      · simp [hx]
      · simp [ih hx]
    · rw [if_neg hc] at hx
      simp at hx

theorem mem_dropWhileL (p : Char → Bool) (l : List Char) (x : Char)
    (hx : x ∈ l.dropWhile p) : x ∈ l := by
  induction l with
  | nil => simp at hx
  | cons c cs ih =>
    rw [List.dropWhile_cons] at hx
    by_cases hc : p c = true
    · rw [if_pos hc] at hx
      simp [ih hx]
    · rw [if_neg hc] at hx
      exact hx

theorem takeWhile_append_all (p : Char → Bool) (a b : List Char)
    (ha : ∀ c ∈ a, p c = true) :
    (a ++ b).takeWhile p = a ++ b.takeWhile p ∧
    (a ++ b).dropWhile p = b.dropWhile p := by
  induction a with
  | nil => simp
  | cons c cs ih =>
    rw [List.cons_append, List.takeWhile_cons, List.dropWhile_cons,
      if_pos (ha c (by simp)), if_pos (ha c (by simp))]
    obtain ⟨h1, h2⟩ := ih fun x hx => ha x (by simp [hx])
    rw [h1, h2]
    simp

theorem takeWhile_stop (p : Char → Bool) (b : List Char)
    (hb : b = [] ∨ ∃ c cs, b = c :: cs ∧ p c = false) :
    b.takeWhile p = [] ∧ b.dropWhile p = b := by
  rcases hb with hb | ⟨c, cs, hb, hc⟩
  · subst hb
    simp
  · subst hb
    rw [List.takeWhile_cons, List.dropWhile_cons, if_neg, if_neg]
    · simp
    · rw [hc]
      simp
    · rw [hc]
      simp

theorem dropWhile_idem (p : Char → Bool) (l : List Char) :
    (l.dropWhile p).dropWhile p = l.dropWhile p := by
  induction l with
  | nil => rfl
  | cons c cs ih =>
    rw [List.dropWhile_cons]
    by_cases hc : p c = true
    · rw [if_pos hc]
      exact ih
    · rw [if_neg hc, List.dropWhile_cons, if_neg hc]

theorem rstripSlash_idem (l : List Char) :
    rstripSlash (rstripSlash l) = rstripSlash l := by
  unfold rstripSlash
  rw [List.reverse_reverse, dropWhile_idem]

theorem mem_rstripSlash (l : List Char) (x : Char) (hx : x ∈ rstripSlash l) :
    x ∈ l := by
  unfold rstripSlash at hx
  rw [List.mem_reverse] at hx
  have := mem_dropWhileL _ _ _ hx
  rwa [List.mem_reverse] at this

theorem dropWhile_eq_drop (p : Char → Bool) (l : List Char) :
    ∃ n, l.dropWhile p = l.drop n := by
  induction l with
  | nil => exact ⟨0, rfl⟩
  | cons c cs ih =>
    rw [List.dropWhile_cons]
    by_cases hc : p c = true
    · obtain ⟨n, hn⟩ := ih
      exact ⟨n + 1, by rw [if_pos hc, hn]; rfl⟩
    · exact ⟨0, by rw [if_neg hc]; rfl⟩

theorem rstripSlash_eq_take (l : List Char) :
    ∃ k, rstripSlash l = l.take k := by
  unfold rstripSlash
  obtain ⟨n, hn⟩ := dropWhile_eq_drop (fun c => c == '/') l.reverse
  refine ⟨l.length - n, ?_⟩
  rw [hn, List.reverse_drop, List.reverse_reverse, List.length_reverse]

theorem rstripSlash_head (c : Char) (rest : List Char)
    (hx : rstripSlash (c :: rest) ≠ []) :
    ∃ rest2, rstripSlash (c :: rest) = c :: rest2 := by
  obtain ⟨k, hk⟩ := rstripSlash_eq_take (c :: rest)
  cases k with
  | zero =>
    rw [hk] at hx
    simp at hx
  | succ k2 =>
    rw [hk]
    exact ⟨rest.take k2, rfl⟩

theorem digitChar_toNat (n : Nat) (h : n < 10) : (digitChar n).toNat = 48 + n :=
  toNat_ofNat_lt _ (by omega)

theorem digitChar_isDigit (n : Nat) (h : n < 10) : (digitChar n).isDigit = true := by
  rw [isDigit_iff, digitChar_toNat n h]
  omega

theorem digitVal_digitChar (n : Nat) (h : n < 10) : digitVal (digitChar n) = n := by
  unfold digitVal
  rw [digitChar_toNat n h]
  omega

theorem digitsToNat_append (xs : List Char) (d : Char) :
    digitsToNat (xs ++ [d]) = 10 * digitsToNat xs + digitVal d := by
  unfold digitsToNat
  rw [List.foldl_append]
  simp [Nat.mul_comm]

theorem natToDigitsAux_spec (fuel n : Nat) (h : n < fuel) :
    (natToDigitsAux fuel n).all Char.isDigit = true ∧
    natToDigitsAux fuel n ≠ [] ∧
    digitsToNat (natToDigitsAux fuel n) = n := by
  induction fuel generalizing n with
  | zero => omega
  | succ f ih =>
    unfold natToDigitsAux
    by_cases h10 : n < 10
    · rw [if_pos h10]
      refine ⟨?_, by simp, ?_⟩
      · simp [digitChar_isDigit n h10]
      · unfold digitsToNat
        simp [digitVal_digitChar n h10]
    · rw [if_neg h10]
      have hdiv : n / 10 < f := by
        have h1 : n / 10 < n := Nat.div_lt_self (by omega) (by omega)
        omega
      obtain ⟨hall, hne, hval⟩ := ih (n / 10) hdiv
      refine ⟨?_, by simp, ?_⟩
      · rw [List.all_append, hall]
        simp [digitChar_isDigit (n % 10) (Nat.mod_lt _ (by omega))]
      · rw [digitsToNat_append, hval,
          digitVal_digitChar (n % 10) (Nat.mod_lt _ (by omega))]
        omega

theorem natToDigitsL_spec (n : Nat) :
    (natToDigitsL n).all Char.isDigit = true ∧
    natToDigitsL n ≠ [] ∧
    digitsToNat (natToDigitsL n) = n :=
  natToDigitsAux_spec (n + 1) n (by omega)

theorem digit_char_classes (c : Char) (h : c.isDigit = true) :
    (c == ':') = false ∧ (c == '@') = false ∧ netlocEnd c = false
      ∧ unsafeChar c = false ∧ (c == '#') = false ∧ (c == '?') = false := by
  rw [isDigit_iff] at h
  refine ⟨?_, ?_, ?_, ?_, ?_, ?_⟩
  · rw [beq_eq_false_iff_ne]
    intro hc
    rw [hc] at h
    revert h
    decide
  · rw [beq_eq_false_iff_ne]
    intro hc
    rw [hc] at h
    revert h
    decide
  · unfold netlocEnd
    rw [Bool.or_eq_false_iff, Bool.or_eq_false_iff]
    refine ⟨⟨?_, ?_⟩, ?_⟩ <;>
      (rw [beq_eq_false_iff_ne]; intro hc; rw [hc] at h; revert h; decide)
  · unfold unsafeChar
    rw [Bool.or_eq_false_iff, Bool.or_eq_false_iff]
    refine ⟨⟨?_, ?_⟩, ?_⟩ <;>
      (rw [beq_eq_false_iff_ne]; intro hc; rw [hc] at h; revert h; decide)
  · rw [beq_eq_false_iff_ne]
    intro hc
    rw [hc] at h
    revert h
    decide
  · rw [beq_eq_false_iff_ne]
    intro hc
    rw [hc] at h
    revert h
    decide

theorem prep_fix (v : List Char) (hhead : ∀ c ∈ v.head?, 33 ≤ c.toNat)
    (hclean : ∀ c ∈ v, unsafeChar c = false) :
    (v.dropWhile c0OrSpace).filter (fun c => !unsafeChar c) = v := by
  have hdrop : v.dropWhile c0OrSpace = v := by
    cases v with
    | nil => rfl
    | cons c cs =>
      rw [List.dropWhile_cons, if_neg]
      intro hc
      unfold c0OrSpace at hc
      rw [decide_eq_true_iff] at hc
      have := hhead c (by simp)
      omega
  rw [hdrop, List.filter_eq_self.mpr]
  intro c hc
  rw [Bool.not_eq_true']
  exact hclean c hc

theorem schemeChar_clean (x : Char) (h : schemeChar x = true) :
    (x == ':') = false ∧ unsafeChar x = false ∧ 33 ≤ x.toNat := by
  obtain ⟨h58, h33, _⟩ := schemeChar_props x h
  refine ⟨?_, ?_, h33⟩
  · rw [beq_eq_false_iff_ne]
    intro hc
    rw [hc] at h58
    exact h58 rfl
  · unfold unsafeChar
    rw [Bool.or_eq_false_iff, Bool.or_eq_false_iff]
    refine ⟨⟨?_, ?_⟩, ?_⟩ <;>
      (rw [beq_eq_false_iff_ne]; intro hc; rw [hc] at h33; revert h33; decide)

theorem urlsplitRest_auth (scheme tail : List Char) :
    urlsplitRest scheme ('/' :: '/' :: tail)
      = ⟨scheme, tail.takeWhile (fun c => !netlocEnd c),
          (splitFragQuery (tail.dropWhile fun c => !netlocEnd c)).1,
          (splitFragQuery (tail.dropWhile fun c => !netlocEnd c)).2.1,
          (splitFragQuery (tail.dropWhile fun c => !netlocEnd c)).2.2,
          true⟩ := by
  unfold urlsplitRest
  rw [if_pos (show List.take 2 ('/' :: '/' :: tail) = ['/', '/'] from rfl)]
  rfl

theorem urlsplitL_render (c : Char) (cs netloc path query frag : List Char)
    (halpha : c.isAlpha = true)
    (hscheme : (c :: cs).all schemeChar = true)
    (hnet : ∀ x ∈ netloc, netlocEnd x = false ∧ unsafeChar x = false)
    (hpath : ∀ x ∈ path, (x == '#') = false ∧ (x == '?') = false ∧ unsafeChar x = false)
    (hpathHead : path = [] ∨ ∃ t, path = '/' :: t)
    (hquery : ∀ x ∈ query, (x == '#') = false ∧ unsafeChar x = false)
    (hfrag : ∀ x ∈ frag, unsafeChar x = false) :
    urlsplitL ((c :: cs) ++ ':' :: '/' :: '/' :: (netloc ++ (path
        ++ ((if query = [] then [] else '?' :: query)
          ++ (if frag = [] then [] else '#' :: frag)))))
      = ⟨lowerL (c :: cs), netloc, path, query, frag, true⟩ := by
  have hschemeAll : ∀ x ∈ c :: cs, schemeChar x = true := by
    rw [List.all_eq_true] at hscheme
    exact hscheme
  have hWhole : ∀ x ∈ (c :: cs) ++ ':' :: '/' :: '/' :: (netloc ++ (path
      ++ ((if query = [] then [] else '?' :: query)
        ++ (if frag = [] then [] else '#' :: frag)))), unsafeChar x = false := by
    intro x hx
    rw [List.mem_append] at hx
    rcases hx with hx | hx
    · exact (schemeChar_clean x (hschemeAll x hx)).2.1
    · rw [List.mem_cons] at hx
      rcases hx with hx | hx
      · rw [hx]; rfl
      · rw [List.mem_cons] at hx
        rcases hx with hx | hx
        · rw [hx]; rfl
        · rw [List.mem_cons] at hx
          rcases hx with hx | hx
          · rw [hx]; rfl
          · rw [List.mem_append] at hx
            rcases hx with hx | hx
            · exact (hnet x hx).2
            · rw [List.mem_append] at hx
              rcases hx with hx | hx
              · exact (hpath x hx).2.2
              · rw [List.mem_append] at hx
                rcases hx with hx | hx
                · by_cases hq : query = []
                  · rw [if_pos hq] at hx
                    simp at hx
                  · rw [if_neg hq] at hx
                    rw [List.mem_cons] at hx
                    rcases hx with hx | hx
                    · rw [hx]; rfl
                    · exact (hquery x hx).2
                · by_cases hf : frag = []
                  · rw [if_pos hf] at hx
                    simp at hx
                  · rw [if_neg hf] at hx
                    rw [List.mem_cons] at hx
                    rcases hx with hx | hx
                    · rw [hx]; rfl
                    · exact hfrag x hx
  unfold urlsplitL
  rw [prep_fix _ (by
      intro x hx
      rw [List.cons_append, List.head?_cons, Option.mem_def,
        Option.some.injEq] at hx
      subst hx
      rw [isAlpha_iff] at halpha
      omega)
    hWhole]
  have hsplit : splitFirst (fun x => x == ':')
      ((c :: cs) ++ ':' :: '/' :: '/' :: (netloc ++ (path
        ++ ((if query = [] then [] else '?' :: query)
          ++ (if frag = [] then [] else '#' :: frag)))))
      = (c :: cs, some ('/' :: '/' :: (netloc ++ (path
        ++ ((if query = [] then [] else '?' :: query)
          ++ (if frag = [] then [] else '#' :: frag)))))) := by
    apply splitFirst_append
    · intro x hx
      exact (schemeChar_clean x (hschemeAll x hx)).1
    · rfl
  have hss : splitScheme ((c :: cs) ++ ':' :: '/' :: '/' :: (netloc ++ (path
      ++ ((if query = [] then [] else '?' :: query)
        ++ (if frag = [] then [] else '#' :: frag)))))
      = (lowerL (c :: cs), '/' :: '/' :: (netloc ++ (path
        ++ ((if query = [] then [] else '?' :: query)
          ++ (if frag = [] then [] else '#' :: frag))))) := by
    unfold splitScheme
    rw [hsplit]
    simp only []
    rw [if_pos]
    rw [Bool.and_eq_true]
    exact ⟨halpha, hscheme⟩
  rw [hss]
  simp only []
  rw [urlsplitRest_auth]
  unfold splitFragQuery
  have htake := takeWhile_append_all (fun x => !netlocEnd x) netloc
    (path ++ ((if query = [] then [] else '?' :: query)
      ++ (if frag = [] then [] else '#' :: frag)))
    (by
      intro x hx
      rw [Bool.not_eq_true']
      exact (hnet x hx).1)
  have hstop := takeWhile_stop (fun x => !netlocEnd x)
    (path ++ ((if query = [] then [] else '?' :: query)
      ++ (if frag = [] then [] else '#' :: frag)))
    (by
      rcases hpathHead with hp | ⟨t, hp⟩
      · subst hp
        rw [List.nil_append]
        by_cases hq : query = []
        · rw [if_pos hq, List.nil_append]
          by_cases hf : frag = []
          · rw [if_pos hf]
            left
            rfl
          · rw [if_neg hf]
            right
            exact ⟨'#', frag, rfl, by decide⟩
        · rw [if_neg hq]
          right
          exact ⟨'?', query ++ (if frag = [] then [] else '#' :: frag), by simp, by decide⟩
      · subst hp
        right
        exact ⟨'/', t ++ ((if query = [] then [] else '?' :: query)
          ++ (if frag = [] then [] else '#' :: frag)), by simp, by decide⟩)
  rw [htake.1, htake.2, hstop.1, hstop.2, List.append_nil]
  have hfragSplit : splitFirst (fun x => x == '#')
      (path ++ ((if query = [] then [] else '?' :: query)
        ++ (if frag = [] then [] else '#' :: frag)))
      = (path ++ (if query = [] then [] else '?' :: query),
          if frag = [] then none else some frag) := by
    by_cases hf : frag = []
    · rw [if_pos hf, if_pos hf, List.append_nil]
      apply splitFirst_none
      intro x hx
      rw [List.mem_append] at hx
      rcases hx with hx | hx
      · exact (hpath x hx).1
      · by_cases hq : query = []
        · rw [if_pos hq] at hx
          simp at hx
        · rw [if_neg hq] at hx
          rw [List.mem_cons] at hx
          rcases hx with hx | hx
          · rw [hx]; rfl
          · exact (hquery x hx).1
    · rw [if_neg hf, if_neg hf, ← List.append_assoc]
      apply splitFirst_append
      · intro x hx
        rw [List.mem_append] at hx
        rcases hx with hx | hx
        · exact (hpath x hx).1
        · by_cases hq : query = []
          · rw [if_pos hq] at hx
            simp at hx
          · rw [if_neg hq] at hx
            rw [List.mem_cons] at hx
            rcases hx with hx | hx
            · rw [hx]; rfl
            · exact (hquery x hx).1
      · rfl
  rw [hfragSplit]
  have hquerySplit : splitFirst (fun x => x == '?')
      (path ++ (if query = [] then [] else '?' :: query))
      = (path, if query = [] then none else some query) := by
    by_cases hq : query = []
    · rw [if_pos hq, if_pos hq, List.append_nil]
      apply splitFirst_none
      intro x hx
      exact (hpath x hx).2.1
    · rw [if_neg hq, if_neg hq]
      apply splitFirst_append
      · intro x hx
        exact (hpath x hx).2.1
      · rfl
  rw [hquerySplit]
  by_cases hq : query = [] <;> by_cases hf : frag = [] <;>
    simp [hq, hf]

theorem hostPort_no_at (host : List Char) (port? : Option Nat)
    (hhost : ∀ x ∈ host, (x == '@') = false) :
    ∀ x ∈ hostPort host port?, x ≠ '@' := by
  intro x hx
  unfold hostPort at hx
  cases port? with
  | none =>
    rw [← beq_eq_false_iff_ne]
    exact hhost x hx
  | some p =>
    rw [List.mem_append, List.mem_cons] at hx
    rcases hx with hx | hx | hx
    · rw [← beq_eq_false_iff_ne]
      exact hhost x hx
    · rw [hx]
      decide
    · have hd : x.isDigit = true := by
        have := (natToDigitsL_spec p).1
        rw [List.all_eq_true] at this
        exact this x hx
      rw [← beq_eq_false_iff_ne]
      exact (digit_char_classes x hd).2.1

theorem hostPort_split (host : List Char) (port? : Option Nat)
    (hhost : ∀ x ∈ host, (x == ':') = false) :
    splitFirst (fun c => c == ':') (hostPort host port?)
      = (host, port?.map natToDigitsL) := by
  unfold hostPort
  cases port? with
  | none =>
    rw [Option.map_none']
    exact splitFirst_none _ host hhost
  | some p =>
    rw [Option.map_some']
    exact splitFirst_append _ host (natToDigitsL p) ':' hhost (by decide)

theorem buildNetloc_recover (user? pw? : Option (List Char))
    (host : List Char) (port? : Option Nat)
    (hhost : ∀ x ∈ host, (x == ':') = false ∧ (x == '@') = false) :
    hostinfoOf (buildNetloc user? pw? host port?) = hostPort host port? ∧
    userinfoOf (buildNetloc user? pw? host port?)
      = (match user? with
        | none => none
        | some user =>
          if user = [] then none
          else
            some (match pw? with
              | some pw => if pw = [] then user else user ++ ':' :: pw
              | none => user)) := by
  have hnone := splitLastChar_none '@' (hostPort host port?)
    (hostPort_no_at host port? fun x hx => (hhost x hx).2)
  have hap : ∀ ui : List Char,
      splitLastChar '@' (ui ++ '@' :: hostPort host port?)
        = some (ui, hostPort host port?) :=
    fun ui => splitLastChar_append '@' ui (hostPort host port?)
      (hostPort_no_at host port? fun x hx => (hhost x hx).2)
  cases user? with
  | none =>
    have hb : buildNetloc none pw? host port? = hostPort host port? := rfl
    rw [hb]
    unfold hostinfoOf userinfoOf
    rw [hnone]
    exact ⟨rfl, rfl⟩
  | some user =>
    by_cases hu : user = []
    · have hb : buildNetloc (some user) pw? host port? = hostPort host port? := by
        simp only [buildNetloc]
        rw [if_pos hu]
      rw [hb]
      unfold hostinfoOf userinfoOf
      rw [hnone]
      exact ⟨rfl, by simp [hu]⟩
    · cases pw? with
      | none =>
        have hb : buildNetloc (some user) none host port?
            = user ++ '@' :: hostPort host port? := by
          simp only [buildNetloc]
          rw [if_neg hu]
        rw [hb]
        unfold hostinfoOf userinfoOf
        rw [hap user]
        exact ⟨rfl, by simp [hu]⟩
      | some pw =>
        by_cases hpw : pw = []
        · have hb : buildNetloc (some user) (some pw) host port?
              = user ++ '@' :: hostPort host port? := by
            simp only [buildNetloc]
            rw [if_neg hu, if_pos hpw]
          rw [hb]
          unfold hostinfoOf userinfoOf
          rw [hap user]
          exact ⟨rfl, by simp [hu, hpw]⟩
        · have hb : buildNetloc (some user) (some pw) host port?
              = (user ++ ':' :: pw) ++ '@' :: hostPort host port? := by
            simp only [buildNetloc]
            rw [if_neg hu, if_neg hpw]
          rw [hb]
          unfold hostinfoOf userinfoOf
          rw [hap (user ++ ':' :: pw)]
          exact ⟨rfl, by simp [hu, hpw]⟩

theorem hostPort_no_lbrack (host : List Char) (port? : Option Nat)
    (hhost : ∀ x ∈ host, (x == '[') = false) :
    (hostPort host port?).contains '[' = false := by
  rw [Bool.eq_false_iff]
  intro hc
  have hm : '[' ∈ hostPort host port? := List.mem_of_elem_eq_true hc
  unfold hostPort at hm
  cases port? with
  | none =>
    have hh := hhost '[' hm
    simp at hh
  | some p =>
    rw [List.mem_append, List.mem_cons] at hm
    rcases hm with hm | hm | hm
    · have hh := hhost '[' hm
      simp at hh
    · exact absurd hm (by decide)
    · have hall := (natToDigitsL_spec p).1
      rw [List.all_eq_true] at hall
      exact absurd (hall '[' hm) (by decide)

theorem portStrOf_buildNetloc (user? pw? : Option (List Char))
    (host : List Char) (port? : Option Nat)
    (hhost : ∀ x ∈ host, (x == ':') = false ∧ (x == '@') = false
      ∧ (x == '[') = false) :
    portStrOf (buildNetloc user? pw? host port?) = port?.map natToDigitsL := by
  have hhost2 : ∀ x ∈ host, (x == ':') = false ∧ (x == '@') = false :=
    fun x hx => ⟨(hhost x hx).1, (hhost x hx).2.1⟩
  have hhi := (buildNetloc_recover user? pw? host port? hhost2).1
  have hnb := hostPort_no_lbrack host port? fun x hx => (hhost x hx).2.2
  unfold portStrOf
  rw [hhi, if_neg (by rw [hnb]; exact Bool.false_ne_true),
    hostPort_split host port? fun x hx => (hhost x hx).1]
  cases port? with
  | none => rfl
  | some p =>
    rw [Option.map_some']
    show (if natToDigitsL p = [] then none else some (natToDigitsL p))
      = some (natToDigitsL p)
    rw [if_neg (natToDigitsL_spec p).2.1]

theorem parsePort_buildNetloc (user? pw? : Option (List Char))
    (host : List Char) (port? : Option Nat)
    (hhost : ∀ x ∈ host, (x == ':') = false ∧ (x == '@') = false
      ∧ (x == '[') = false)
    (hple : ∀ p, port? = some p → p ≤ 65535) :
    parsePort (buildNetloc user? pw? host port?) = .ok port? := by
  unfold parsePort
  rw [portStrOf_buildNetloc user? pw? host port? hhost]
  cases port? with
  | none => rfl
  | some p =>
    rw [Option.map_some']
    obtain ⟨hall, hne, hval⟩ := natToDigitsL_spec p
    show (if (natToDigitsL p).all Char.isDigit = true then
        if digitsToNat (natToDigitsL p) ≤ 65535
        then Except.ok (some (digitsToNat (natToDigitsL p)))
        else Except.error ()
      else Except.error ()) = Except.ok (some p)
    rw [if_pos hall, hval, if_pos (hple p rfl)]

theorem hostRawOf_buildNetloc (user? pw? : Option (List Char))
    (host : List Char) (port? : Option Nat)
    (hhost : ∀ x ∈ host, (x == ':') = false ∧ (x == '@') = false
      ∧ (x == '[') = false) :
    hostRawOf (buildNetloc user? pw? host port?) = host := by
  have hhost2 : ∀ x ∈ host, (x == ':') = false ∧ (x == '@') = false :=
    fun x hx => ⟨(hhost x hx).1, (hhost x hx).2.1⟩
  have hnb := hostPort_no_lbrack host port? fun x hx => (hhost x hx).2.2
  unfold hostRawOf
  rw [(buildNetloc_recover user? pw? host port? hhost2).1,
    if_neg (by rw [hnb]; exact Bool.false_ne_true),
    hostPort_split host port? fun x hx => (hhost x hx).1]

theorem buildNetloc_roundtrip (user? pw? : Option (List Char))
    (host : List Char) (port? : Option Nat)
    (hhost : ∀ x ∈ host, (x == ':') = false ∧ (x == '@') = false
      ∧ (x == '[') = false)
    (huser : ∀ u x, user? = some u → x ∈ u → (x == ':') = false)
    (hlow : lowerL host = host) :
    buildNetloc
      (usernameOf (buildNetloc user? pw? host port?))
      (passwordOf (buildNetloc user? pw? host port?))
      (lowerL (hostRawOf (buildNetloc user? pw? host port?)))
      port?
      = buildNetloc user? pw? host port? := by
  rw [hostRawOf_buildNetloc user? pw? host port? hhost, hlow]
  have hui := (buildNetloc_recover user? pw? host port?
    (fun x hx => ⟨(hhost x hx).1, (hhost x hx).2.1⟩)).2
  cases user? with
  | none =>
    have hui2 : userinfoOf (buildNetloc none pw? host port?) = none := hui
    unfold usernameOf passwordOf
    rw [hui2]
    rfl
  | some user =>
    by_cases hu : user = []
    · have hui2 : userinfoOf (buildNetloc (some user) pw? host port?) = none := by
        rw [hui]
        exact if_pos hu
      unfold usernameOf passwordOf
      rw [hui2]
      simp only [Option.map_none']
      have hb : buildNetloc (some user) pw? host port? = hostPort host port? := by
        simp only [buildNetloc]
        rw [if_pos hu]
      rw [hb]
      rfl
    · have hsplitU := splitFirst_none (fun c => c == ':') user
        (fun x hx => huser user x rfl hx)
      cases pw? with
      | none =>
        have hui2 : userinfoOf (buildNetloc (some user) none host port?)
            = some user := by
          rw [hui]
          exact if_neg hu
        unfold usernameOf passwordOf
        rw [hui2]
        simp only [Option.map_some']
        rw [hsplitU]
      | some pw =>
        by_cases hpw : pw = []
        · have hui2 : userinfoOf (buildNetloc (some user) (some pw) host port?)
              = some user := by
            rw [hui]
            show (if user = [] then none
              else some (if pw = [] then user else user ++ ':' :: pw)) = some user
            rw [if_neg hu, if_pos hpw]
          unfold usernameOf passwordOf
          rw [hui2]
          simp only [Option.map_some']
          rw [hsplitU]
          show buildNetloc (some user) none host port?
            = buildNetloc (some user) (some pw) host port?
          have hbL : buildNetloc (some user) none host port?
              = user ++ '@' :: hostPort host port? := by
            simp only [buildNetloc]
            rw [if_neg hu]
          have hbR : buildNetloc (some user) (some pw) host port?
              = user ++ '@' :: hostPort host port? := by
            simp only [buildNetloc]
            rw [if_neg hu, if_pos hpw]
          rw [hbL, hbR]
        · have hui2 : userinfoOf (buildNetloc (some user) (some pw) host port?)
              = some (user ++ ':' :: pw) := by
            rw [hui]
            show (if user = [] then none
              else some (if pw = [] then user else user ++ ':' :: pw))
              = some (user ++ ':' :: pw)
            rw [if_neg hu, if_neg hpw]
          unfold usernameOf passwordOf
          rw [hui2]
          simp only [Option.map_some']
          rw [splitFirst_append (fun c => c == ':') user pw ':'
            (fun x hx => huser user x rfl hx) (by decide)]

theorem lowerChar_netlocEnd (c : Char) (h : netlocEnd c = false) :
    netlocEnd (lowerChar c) = false := by
  rcases lowerChar_cases c with ⟨h1, h2⟩ | hfix
  · unfold netlocEnd
    rw [Bool.or_eq_false_iff, Bool.or_eq_false_iff]
    refine ⟨⟨?_, ?_⟩, ?_⟩ <;>
      (rw [beq_eq_false_iff_ne]; intro hc; rw [hc] at h1; revert h1; decide)
  · rw [hfix]
    exact h

theorem lowerChar_clean (c : Char) (h : unsafeChar c = false) :
    unsafeChar (lowerChar c) = false := by
  rcases lowerChar_cases c with ⟨h1, h2⟩ | hfix
  · unfold unsafeChar
    rw [Bool.or_eq_false_iff, Bool.or_eq_false_iff]
    refine ⟨⟨?_, ?_⟩, ?_⟩ <;>
      (rw [beq_eq_false_iff_ne]; intro hc; rw [hc] at h1; revert h1; decide)
  · rw [hfix]
    exact h

theorem lowerChar_beq_false (c d : Char) (hd : d.toNat < 97)
    (h : (c == d) = false) : (lowerChar c == d) = false := by
  rw [beq_eq_false_iff_ne]
  exact lowerChar_ne c d (Or.inl hd) (beq_eq_false_iff_ne.mp h)

theorem dropWhile_head (p : Char → Bool) (l : List Char) (c : Char)
    (h : (l.dropWhile p).head? = some c) : p c = false := by
  induction l with
  | nil => simp at h
  | cons d ds ih =>
    rw [List.dropWhile_cons] at h
    by_cases hd : p d = true
    · rw [if_pos hd] at h
      exact ih h
    · rw [if_neg hd] at h
      rw [List.head?_cons, Option.some.injEq] at h
      subst h
      exact Bool.eq_false_iff.mpr hd

theorem netlocEnd_cases (c : Char) (h : netlocEnd c = true) :
    c = '/' ∨ c = '?' ∨ c = '#' := by
  unfold netlocEnd at h
  rw [Bool.or_eq_true, Bool.or_eq_true] at h
  rcases h with (h | h) | h
  · exact Or.inl (eq_of_beq h)
  · exact Or.inr (Or.inl (eq_of_beq h))
  · exact Or.inr (Or.inr (eq_of_beq h))

theorem splitLastChar_none_ne (ch : Char) (l : List Char)
    (h : splitLastChar ch l = none) : ∀ x ∈ l, (x == ch) = false := by
  induction l with
  | nil =>
    intro x hx
    simp at hx
  | cons c cs ih =>
    intro x hx
    unfold splitLastChar at h
    cases hsc : splitLastChar ch cs with
    | some pr =>
      obtain ⟨pre, rest⟩ := pr
      rw [hsc] at h
      simp at h
    | none =>
      rw [hsc] at h
      by_cases hc : (c == ch) = true
      · rw [if_pos hc] at h
        simp at h
      · rw [List.mem_cons] at hx
        rcases hx with hx | hx
        · subst hx
          exact Bool.eq_false_iff.mpr hc
        · exact ih hsc x hx

theorem mem_splitLastChar_fst (ch : Char) (l pre rest : List Char)
    (h : splitLastChar ch l = some (pre, rest)) :
    ∀ x ∈ pre, x ∈ l := by
  induction l generalizing pre rest with
  | nil => simp [splitLastChar] at h
  | cons c cs ih =>
    intro x hx
    unfold splitLastChar at h
    cases hsc : splitLastChar ch cs with
    | some pr =>
      obtain ⟨pre2, rest2⟩ := pr
      rw [hsc] at h
      simp only [Option.some.injEq, Prod.mk.injEq] at h
      obtain ⟨h1, h2⟩ := h
      subst h1
      rw [List.mem_cons] at hx
      rcases hx with hx | hx
      · subst hx
        simp
      · exact List.mem_cons.mpr (Or.inr (ih pre2 rest2 hsc x hx))
    | none =>
      rw [hsc] at h
      by_cases hc : (c == ch) = true
      · rw [if_pos hc] at h
        simp only [Option.some.injEq, Prod.mk.injEq] at h
        obtain ⟨h1, h2⟩ := h
        subst h1
        simp at hx
      · rw [if_neg hc] at h
        simp at h

theorem mem_splitLastChar_snd (ch : Char) (l pre rest : List Char)
    (h : splitLastChar ch l = some (pre, rest)) :
    ∀ x ∈ rest, x ∈ l ∧ (x == ch) = false := by
  induction l generalizing pre rest with
  | nil => simp [splitLastChar] at h
  | cons c cs ih =>
    intro x hx
    unfold splitLastChar at h
    cases hsc : splitLastChar ch cs with
    | some pr =>
      obtain ⟨pre2, rest2⟩ := pr
      rw [hsc] at h
      simp only [Option.some.injEq, Prod.mk.injEq] at h
      obtain ⟨h1, h2⟩ := h
      subst h2
      obtain ⟨hm, hne⟩ := ih pre2 rest2 hsc x hx
      exact ⟨List.mem_cons.mpr (Or.inr hm), hne⟩
    | none =>
      rw [hsc] at h
      by_cases hc : (c == ch) = true
      · rw [if_pos hc] at h
        simp only [Option.some.injEq, Prod.mk.injEq] at h
        obtain ⟨h1, h2⟩ := h
        subst h2
        refine ⟨List.mem_cons.mpr (Or.inr hx), ?_⟩
        exact splitLastChar_none_ne ch cs hsc x hx
      · rw [if_neg hc] at h
        simp at h

theorem mem_userinfoOf (n ui : List Char) (x : Char)
    (h : userinfoOf n = some ui) (hx : x ∈ ui) : x ∈ n := by
  unfold userinfoOf at h
  cases hsc : splitLastChar '@' n with
  | none =>
    rw [hsc] at h
    simp at h
  | some pr =>
    obtain ⟨pre, rest⟩ := pr
    rw [hsc] at h
    simp only [Option.some.injEq] at h
    subst h
    exact mem_splitLastChar_fst '@' n pre rest hsc x hx

theorem mem_hostinfoOf (n : List Char) (x : Char) (hx : x ∈ hostinfoOf n) :
    x ∈ n ∧ (x == '@') = false := by
  unfold hostinfoOf at hx
  cases hsc : splitLastChar '@' n with
  | some pr =>
    obtain ⟨ui, hi⟩ := pr
    rw [hsc] at hx
    exact mem_splitLastChar_snd '@' n ui hi hsc x hx
  | none =>
    rw [hsc] at hx
    exact ⟨hx, splitLastChar_none_ne '@' n hsc x hx⟩

theorem hostinfo_no_lbrack (n : List Char)
    (h : ∀ x ∈ n, (x == '[') = false) :
    (hostinfoOf n).contains '[' = false := by
  rw [Bool.eq_false_iff]
  intro hc
  have hm : '[' ∈ hostinfoOf n := List.mem_of_elem_eq_true hc
  have hh := h '[' (mem_hostinfoOf n '[' hm).1
  simp at hh

theorem mem_hostRawOf (n : List Char) (x : Char)
    (hnb : (hostinfoOf n).contains '[' = false) (hx : x ∈ hostRawOf n) :
    x ∈ n ∧ (x == ':') = false ∧ (x == '@') = false := by
  unfold hostRawOf at hx
  rw [if_neg (by rw [hnb]; exact Bool.false_ne_true)] at hx
  obtain ⟨hm, hne⟩ := mem_splitFirst_fst _ _ _ hx
  obtain ⟨hm2, hne2⟩ := mem_hostinfoOf n x hm
  exact ⟨hm2, hne, hne2⟩

theorem mem_usernameOf (n user : List Char) (x : Char)
    (h : usernameOf n = some user) (hx : x ∈ user) :
    x ∈ n ∧ (x == ':') = false := by
  unfold usernameOf at h
  cases hui : userinfoOf n with
  | none =>
    rw [hui] at h
    simp at h
  | some ui =>
    rw [hui] at h
    simp only [Option.map_some', Option.some.injEq] at h
    subst h
    obtain ⟨hm, hne⟩ := mem_splitFirst_fst _ _ _ hx
    exact ⟨mem_userinfoOf n ui x hui hm, hne⟩

theorem mem_passwordOf (n pw : List Char) (x : Char)
    (h : passwordOf n = some pw) (hx : x ∈ pw) : x ∈ n := by
  unfold passwordOf at h
  cases hui : userinfoOf n with
  | none =>
    rw [hui] at h
    simp at h
  | some ui =>
    rw [hui] at h
    simp only [] at h
    cases hsp : splitFirst (fun c => c == ':') ui with
    | mk pre snd =>
      rw [hsp] at h
      cases snd with
      | none => simp at h
      | some rest =>
        simp only [Option.some.injEq] at h
        subst h
        have hmem := mem_splitFirst_snd (fun c => c == ':') ui rest x
          (by rw [hsp]) hx
        exact mem_userinfoOf n ui x hui hmem

theorem mem_hostPort (host : List Char) (port? : Option Nat) (x : Char)
    (hx : x ∈ hostPort host port?) :
    x ∈ host ∨ x = ':' ∨ x.isDigit = true := by
  unfold hostPort at hx
  cases port? with
  | none => exact Or.inl hx
  | some p =>
    rw [List.mem_append, List.mem_cons] at hx
    rcases hx with hx | hx | hx
    · exact Or.inl hx
    · exact Or.inr (Or.inl hx)
    · refine Or.inr (Or.inr ?_)
      have hall := (natToDigitsL_spec p).1
      rw [List.all_eq_true] at hall
      exact hall x hx

theorem buildNetloc_chars (user? pw? : Option (List Char)) (host : List Char)
    (port? : Option Nat)
    (huser : ∀ u x, user? = some u → x ∈ u →
      netlocEnd x = false ∧ unsafeChar x = false)
    (hpw : ∀ pw x, pw? = some pw → x ∈ pw →
      netlocEnd x = false ∧ unsafeChar x = false)
    (hhost : ∀ x ∈ host, netlocEnd x = false ∧ unsafeChar x = false) :
    ∀ x ∈ buildNetloc user? pw? host port?,
      netlocEnd x = false ∧ unsafeChar x = false := by
  intro x hx
  have hsep : netlocEnd ':' = false ∧ unsafeChar ':' = false := by decide
  have hsep2 : netlocEnd '@' = false ∧ unsafeChar '@' = false := by decide
  have hHP : x ∈ hostPort host port? →
      netlocEnd x = false ∧ unsafeChar x = false := by
    intro h
    rcases mem_hostPort host port? x h with h | h | h
    · exact hhost x h
    · subst h
      exact hsep
    · exact ⟨(digit_char_classes x h).2.2.1, (digit_char_classes x h).2.2.2.1⟩
  unfold buildNetloc at hx
  cases user? with
  | none => exact hHP hx
  | some user =>
    simp only [] at hx
    by_cases hu : user = []
    · rw [if_pos hu] at hx
      exact hHP hx
    · rw [if_neg hu] at hx
      cases pw? with
      | none =>
        rw [List.mem_append, List.mem_cons] at hx
        rcases hx with hx | hx | hx
        · exact huser user x rfl hx
        · subst hx
          exact hsep2
        · exact hHP hx
      | some pw =>
        simp only [] at hx
        by_cases hpw2 : pw = []
        · rw [if_pos hpw2] at hx
          rw [List.mem_append, List.mem_cons] at hx
          rcases hx with hx | hx | hx
          · exact huser user x rfl hx
          · subst hx
            exact hsep2
          · exact hHP hx
        · rw [if_neg hpw2] at hx
          simp only [List.mem_append, List.mem_cons] at hx
          rcases hx with (hx | hx | hx) | (hx | hx)
          · exact huser user x rfl hx
          · subst hx
            exact hsep
          · exact hpw pw x rfl hx
          · subst hx
            exact hsep2
          · exact hHP hx

theorem splitFragQuery_facts (r : List Char)
    (hclean : ∀ x ∈ r, unsafeChar x = false) :
    (∀ x ∈ (splitFragQuery r).1,
      (x == '#') = false ∧ (x == '?') = false ∧ unsafeChar x = false) ∧
    (∀ x ∈ (splitFragQuery r).2.1, (x == '#') = false ∧ unsafeChar x = false) ∧
    (∀ x ∈ (splitFragQuery r).2.2, unsafeChar x = false) := by
  refine ⟨?_, ?_, ?_⟩
  · intro x hx
    have hx2 : x ∈ (splitFirst (fun c => c == '?')
        (splitFirst (fun c => c == '#') r).1).1 := hx
    obtain ⟨hm1, hq⟩ := mem_splitFirst_fst _ _ _ hx2
    obtain ⟨hm2, hh⟩ := mem_splitFirst_fst _ _ _ hm1
    exact ⟨hh, hq, hclean x hm2⟩
  · intro x hx
    have hx2 : x ∈ ((splitFirst (fun c => c == '?')
        (splitFirst (fun c => c == '#') r).1).2).getD [] := hx
    cases hsp : (splitFirst (fun c => c == '?')
        (splitFirst (fun c => c == '#') r).1).2 with
    | none =>
      rw [hsp] at hx2
      simp at hx2
    | some fq =>
      rw [hsp] at hx2
      have hmem := mem_splitFirst_snd (fun c => c == '?')
        (splitFirst (fun c => c == '#') r).1 fq x hsp hx2
      obtain ⟨hm2, hh⟩ := mem_splitFirst_fst _ _ _ hmem
      exact ⟨hh, hclean x hm2⟩
  · intro x hx
    have hx2 : x ∈ ((splitFirst (fun c => c == '#') r).2).getD [] := hx
    cases hsp : (splitFirst (fun c => c == '#') r).2 with
    | none =>
      rw [hsp] at hx2
      simp at hx2
    | some fr =>
      rw [hsp] at hx2
      exact hclean x (mem_splitFirst_snd (fun c => c == '#') r fr x hsp hx2)

theorem mem_splitScheme_snd (l : List Char) (x : Char)
    (hx : x ∈ (splitScheme l).2) : x ∈ l := by
  unfold splitScheme at hx
  cases hsp : splitFirst (fun c => c == ':') l with
  | mk pre snd =>
    rw [hsp] at hx
    cases snd with
    | none => exact hx
    | some rest =>
      cases pre with
      | nil => exact hx
      | cons c cs =>
        simp only [] at hx
        by_cases hg : (c.isAlpha && (c :: cs).all schemeChar) = true
        · rw [if_pos hg] at hx
          exact mem_splitFirst_snd (fun c => c == ':') l rest x (by rw [hsp]) hx
        · rw [if_neg hg] at hx
          exact hx

theorem splitScheme_shape (l : List Char) :
    (splitScheme l).1 = [] ∨
      ∃ c cs, (splitScheme l).1 = lowerL (c :: cs) ∧ c.isAlpha = true
        ∧ (c :: cs).all schemeChar = true := by
  unfold splitScheme
  cases hsp : splitFirst (fun c => c == ':') l with
  | mk pre snd =>
    cases snd with
    | none => exact Or.inl rfl
    | some rest =>
      cases pre with
      | nil => exact Or.inl rfl
      | cons c cs =>
        simp only []
        by_cases hg : (c.isAlpha && (c :: cs).all schemeChar) = true
        · rw [if_pos hg]
          rw [Bool.and_eq_true] at hg
          exact Or.inr ⟨c, cs, rfl, hg.1, hg.2⟩
        · rw [if_neg hg]
          exact Or.inl rfl

theorem urlsplitRest_scheme (s1 rest1 : List Char) :
    (urlsplitRest s1 rest1).scheme = s1 := by
  unfold urlsplitRest
  by_cases htk : rest1.take 2 = ['/', '/']
  · rw [if_pos htk]
  · rw [if_neg htk]

theorem urlsplitRest_facts (s1 rest1 : List Char)
    (hclean : ∀ x ∈ rest1, unsafeChar x = false) :
    (∀ x ∈ (urlsplitRest s1 rest1).netloc,
      netlocEnd x = false ∧ unsafeChar x = false) ∧
    (∀ x ∈ (urlsplitRest s1 rest1).path,
      (x == '#') = false ∧ (x == '?') = false ∧ unsafeChar x = false) ∧
    ((urlsplitRest s1 rest1).hasAuth = true →
      (urlsplitRest s1 rest1).path = []
        ∨ ∃ t, (urlsplitRest s1 rest1).path = '/' :: t) ∧
    (∀ x ∈ (urlsplitRest s1 rest1).query,
      (x == '#') = false ∧ unsafeChar x = false) ∧
    (∀ x ∈ (urlsplitRest s1 rest1).fragment, unsafeChar x = false) := by
  have hcleanD : ∀ x ∈ rest1.drop 2, unsafeChar x = false :=
    fun x hx => hclean x (List.mem_of_mem_drop hx)
  have hcleanDW : ∀ x ∈ (rest1.drop 2).dropWhile (fun c => !netlocEnd c),
      unsafeChar x = false :=
    fun x hx => hcleanD x (mem_dropWhileL _ _ x hx)
  by_cases htk : rest1.take 2 = ['/', '/']
  · have hR : urlsplitRest s1 rest1
        = ⟨s1, (rest1.drop 2).takeWhile (fun c => !netlocEnd c),
            (splitFragQuery ((rest1.drop 2).dropWhile fun c => !netlocEnd c)).1,
            (splitFragQuery ((rest1.drop 2).dropWhile fun c => !netlocEnd c)).2.1,
            (splitFragQuery ((rest1.drop 2).dropWhile fun c => !netlocEnd c)).2.2,
            true⟩ := by
      unfold urlsplitRest
      rw [if_pos htk]
    rw [hR]
    obtain ⟨h1, h2, h3⟩ := splitFragQuery_facts
      ((rest1.drop 2).dropWhile fun c => !netlocEnd c) hcleanDW
    refine ⟨?_, h1, ?_, h2, h3⟩
    · intro x hx
      have hx2 : x ∈ (rest1.drop 2).takeWhile (fun c => !netlocEnd c) := hx
      have hpred := List.mem_takeWhile_imp hx2
      rw [Bool.not_eq_true'] at hpred
      exact ⟨hpred, hcleanD x (mem_takeWhileL _ _ x hx2)⟩
    · intro _
      show (splitFragQuery ((rest1.drop 2).dropWhile fun c => !netlocEnd c)).1 = []
        ∨ ∃ t, (splitFragQuery
            ((rest1.drop 2).dropWhile fun c => !netlocEnd c)).1 = '/' :: t
      cases hd : (rest1.drop 2).dropWhile (fun c => !netlocEnd c) with
      | nil =>
        exact Or.inl rfl
      | cons ch t =>
        have hch : (fun c => !netlocEnd c) ch = false :=
          dropWhile_head _ _ ch (by rw [hd]; rfl)
        have hend : netlocEnd ch = true := by
          rw [Bool.not_eq_false'] at hch
          exact hch
        rcases netlocEnd_cases ch hend with hc | hc | hc
        · subst hc
          refine Or.inr ⟨(splitFirst (fun c => c == '?')
            (splitFirst (fun c => c == '#') t).1).1, ?_⟩
          rfl
        · subst hc
          exact Or.inl rfl
        · subst hc
          exact Or.inl rfl
  · have hR : urlsplitRest s1 rest1
        = ⟨s1, [], (splitFragQuery rest1).1, (splitFragQuery rest1).2.1,
            (splitFragQuery rest1).2.2, false⟩ := by
      unfold urlsplitRest
      rw [if_neg htk]
    rw [hR]
    obtain ⟨h1, h2, h3⟩ := splitFragQuery_facts rest1 hclean
    refine ⟨?_, h1, ?_, h2, h3⟩
    · intro x hx
      exact absurd hx (List.not_mem_nil x)
    · intro hfalse
      exact absurd hfalse Bool.false_ne_true

theorem prep_clean (url0 : List Char) :
    ∀ x ∈ (url0.dropWhile c0OrSpace).filter (fun c => !unsafeChar c),
      unsafeChar x = false := by
  intro x hx
  rw [List.mem_filter] at hx
  have h2 := hx.2
  rwa [Bool.not_eq_true'] at h2

theorem urlsplitL_facts (url0 : List Char) :
    ((urlsplitL url0).scheme = [] ∨
      ∃ c cs, (urlsplitL url0).scheme = lowerL (c :: cs) ∧ c.isAlpha = true
        ∧ (c :: cs).all schemeChar = true) ∧
    (∀ x ∈ (urlsplitL url0).netloc,
      netlocEnd x = false ∧ unsafeChar x = false) ∧
    (∀ x ∈ (urlsplitL url0).path,
      (x == '#') = false ∧ (x == '?') = false ∧ unsafeChar x = false) ∧
    ((urlsplitL url0).hasAuth = true →
      (urlsplitL url0).path = [] ∨ ∃ t, (urlsplitL url0).path = '/' :: t) ∧
    (∀ x ∈ (urlsplitL url0).query, (x == '#') = false ∧ unsafeChar x = false) ∧
    (∀ x ∈ (urlsplitL url0).fragment, unsafeChar x = false) := by
  have hclean2 : ∀ x ∈ (splitScheme ((url0.dropWhile c0OrSpace).filter
      fun c => !unsafeChar c)).2, unsafeChar x = false :=
    fun x hx => prep_clean url0 x (mem_splitScheme_snd _ x hx)
  have hfacts := urlsplitRest_facts
    (splitScheme ((url0.dropWhile c0OrSpace).filter fun c => !unsafeChar c)).1
    (splitScheme ((url0.dropWhile c0OrSpace).filter fun c => !unsafeChar c)).2
    hclean2
  refine ⟨?_, hfacts.1, hfacts.2.1, hfacts.2.2.1, hfacts.2.2.2.1,
    hfacts.2.2.2.2⟩
  have hsch : (urlsplitL url0).scheme
      = (splitScheme ((url0.dropWhile c0OrSpace).filter
          fun c => !unsafeChar c)).1 :=
    urlsplitRest_scheme _ _
  rw [hsch]
  exact splitScheme_shape _

theorem parsePath_no_semi (scheme path : List Char)
    (h : ∀ x ∈ path, (x == ';') = false) :
    parsePath scheme path = path := by
  unfold parsePath
  have hc : path.contains ';' = false := by
    rw [Bool.eq_false_iff]
    intro hmem
    have hm := List.mem_of_elem_eq_true hmem
    have hsemi := h ';' hm
    simp at hsemi
  rw [hc, Bool.and_false]
  simp

theorem parsePort_ok_le (n : List Char) (p : Nat)
    (h : parsePort n = .ok (some p)) : p ≤ 65535 := by
  unfold parsePort at h
  cases hps : portStrOf n with
  | none =>
    rw [hps] at h
    simp at h
  | some s =>
    rw [hps] at h
    simp only [] at h
    by_cases hd : s.all Char.isDigit = true
    · rw [if_pos hd] at h
      by_cases hle : digitsToNat s ≤ 65535
      · rw [if_pos hle] at h
        simp only [Except.ok.injEq, Option.some.injEq] at h
        rw [← h]
        exact hle
      · rw [if_neg hle] at h
        simp at h
    · rw [if_neg hd] at h
      simp at h

theorem portOutOf_idem (scheme : List Char) (p? : Option Nat) :
    portOutOf scheme (portOutOf scheme p?) = portOutOf scheme p? := by
  cases p? with
  | none => rfl
  | some p =>
    show portOutOf scheme (if portKept scheme p then some p else none)
      = if portKept scheme p then some p else none
    by_cases hk : portKept scheme p = true
    · rw [if_pos hk]
      show (if portKept scheme p then some p else none) = some p
      rw [if_pos hk]
    · rw [if_neg hk]
      rfl

theorem portOutOf_some (scheme : List Char) (p? : Option Nat) (p : Nat)
    (h : portOutOf scheme p? = some p) : p? = some p := by
  cases p? with
  | none => simp [portOutOf] at h
  | some q =>
    have h2 : (if portKept scheme q then some q else none) = some p := h
    by_cases hk : portKept scheme q = true
    · rw [if_pos hk] at h2
      exact h2
    · rw [if_neg hk] at h2
      simp at h2

theorem assemble_eq (f q : List Char) (c : Char) (cs N P : List Char) :
    addFragment f (addQuery q ((c :: cs) ++ ':' :: '/' :: '/' :: (N ++ P)))
      = (c :: cs) ++ ':' :: '/' :: '/' ::
          (N ++ (P ++ ((if q = [] then [] else '?' :: q)
            ++ (if f = [] then [] else '#' :: f)))) := by
  unfold addFragment addQuery
  by_cases hq : q = [] <;> by_cases hf : f = [] <;>
    simp [hq, hf, List.append_assoc]

theorem normalizeSplit_mk_ok (s n p q f : List Char) (b : Bool)
    (po : Option Nat) (h : parsePort n = .ok po) :
    normalizeSplit ⟨s, n, p, q, f, b⟩ = .ok (addFragment f (addQuery q
      (lowerL s ++ ':' :: '/' :: '/' ::
        (buildNetloc (usernameOf n) (passwordOf n)
            (lowerL (hostRawOf n)) (portOutOf (lowerL s) po)
          ++ rstripSlash (parsePath (lowerL s) p))))) := by
  unfold normalizeSplit
  rw [show (⟨s, n, p, q, f, b⟩ : SplitUrl).netloc = n from rfl, h]

theorem normalizeSplit_mk_err (s n p q f : List Char) (b : Bool)
    (h : parsePort n = .error ()) :
    normalizeSplit ⟨s, n, p, q, f, b⟩ = .error () := by
  unfold normalizeSplit
  rw [show (⟨s, n, p, q, f, b⟩ : SplitUrl).netloc = n from rfl, h]

theorem normalize_idem_aux (c : Char) (cs n p q f v : List Char)
    (halpha : c.isAlpha = true)
    (hschemeAll : (c :: cs).all schemeChar = true)
    (hnet : ∀ x ∈ n, netlocEnd x = false ∧ unsafeChar x = false)
    (hpath : ∀ x ∈ p,
      (x == '#') = false ∧ (x == '?') = false ∧ unsafeChar x = false)
    (hpathHead : p = [] ∨ ∃ t, p = '/' :: t)
    (hsemi : ∀ x ∈ p, (x == ';') = false)
    (hnetBr : ∀ x ∈ n, (x == '[') = false)
    (hquery : ∀ x ∈ q, (x == '#') = false ∧ unsafeChar x = false)
    (hfrag : ∀ x ∈ f, unsafeChar x = false)
    (hok : normalizeSplit ⟨lowerL (c :: cs), n, p, q, f, true⟩ = .ok v) :
    normalizeAuthorUrlL v = .ok v := by
  have hnbN := hostinfo_no_lbrack n hnetBr
  cases hpp : parsePort n with
  | error e =>
    cases e
    rw [normalizeSplit_mk_err (lowerL (c :: cs)) n p q f true hpp] at hok
    simp at hok
  | ok port? =>
    have hv := (normalizeSplit_mk_ok (lowerL (c :: cs)) n p q f true
      port? hpp).symm.trans hok
    simp only [Except.ok.injEq] at hv
    rw [lowerL_idem] at hv
    rw [parsePath_no_semi (lowerL (c :: cs)) p hsemi] at hv
    have hv1 : addFragment f (addQuery q ((lowerChar c :: lowerL cs)
        ++ ':' :: '/' :: '/' ::
        (buildNetloc (usernameOf n) (passwordOf n) (lowerL (hostRawOf n))
            (portOutOf (lowerL (c :: cs)) port?)
          ++ rstripSlash p))) = v := hv
    rw [assemble_eq] at hv1
    have halpha2 := lowerChar_isAlpha c halpha
    have hschemeAll2 : (lowerChar c :: lowerL cs).all schemeChar = true := by
      rw [List.all_eq_true]
      intro x hx
      have hx2 : x ∈ List.map lowerChar (c :: cs) := hx
      rw [List.mem_map] at hx2
      obtain ⟨y, hy, hxy⟩ := hx2
      subst hxy
      rw [List.all_eq_true] at hschemeAll
      exact lowerChar_schemeChar y (hschemeAll y hy)
    have hnetN : ∀ x ∈ buildNetloc (usernameOf n) (passwordOf n)
        (lowerL (hostRawOf n)) (portOutOf (lowerL (c :: cs)) port?),
        netlocEnd x = false ∧ unsafeChar x = false := by
      apply buildNetloc_chars
      · intro u x hu hx
        exact hnet x (mem_usernameOf n u x hu hx).1
      · intro pw x hpw hx
        exact hnet x (mem_passwordOf n pw x hpw hx)
      · intro x hx
        have hx2 : x ∈ List.map lowerChar (hostRawOf n) := hx
        rw [List.mem_map] at hx2
        obtain ⟨y, hy, hxy⟩ := hx2
        subst hxy
        obtain ⟨hyn, hc1, hc2⟩ := mem_hostRawOf n y hnbN hy
        obtain ⟨hb1, hb2⟩ := hnet y hyn
        exact ⟨lowerChar_netlocEnd y hb1, lowerChar_clean y hb2⟩
    have hpathP : ∀ x ∈ rstripSlash p,
        (x == '#') = false ∧ (x == '?') = false ∧ unsafeChar x = false :=
      fun x hx => hpath x (mem_rstripSlash p x hx)
    have hpathHeadP : rstripSlash p = [] ∨ ∃ t, rstripSlash p = '/' :: t := by
      rcases hpathHead with hp | ⟨t, hp⟩
      · subst hp
        exact Or.inl rfl
      · subst hp
        by_cases hz : rstripSlash ('/' :: t) = []
        · exact Or.inl hz
        · exact Or.inr (rstripSlash_head '/' t hz)
    have hrender := urlsplitL_render (lowerChar c) (lowerL cs)
      (buildNetloc (usernameOf n) (passwordOf n) (lowerL (hostRawOf n))
        (portOutOf (lowerL (c :: cs)) port?))
      (rstripSlash p) q f halpha2 hschemeAll2 hnetN hpathP hpathHeadP
      hquery hfrag
    rw [hv1] at hrender
    have hvne : v ≠ [] := by
      rw [← hv1]
      simp
    have hhostCols : ∀ x ∈ lowerL (hostRawOf n),
        (x == ':') = false ∧ (x == '@') = false ∧ (x == '[') = false := by
      intro x hx
      have hx2 : x ∈ List.map lowerChar (hostRawOf n) := hx
      rw [List.mem_map] at hx2
      obtain ⟨y, hy, hxy⟩ := hx2
      subst hxy
      obtain ⟨hyn, hc1, hc2⟩ := mem_hostRawOf n y hnbN hy
      exact ⟨lowerChar_beq_false y ':' (by decide) hc1,
        lowerChar_beq_false y '@' (by decide) hc2,
        lowerChar_beq_false y '[' (by decide) (hnetBr y hyn)⟩
    have hppN : parsePort (buildNetloc (usernameOf n) (passwordOf n)
        (lowerL (hostRawOf n)) (portOutOf (lowerL (c :: cs)) port?))
        = .ok (portOutOf (lowerL (c :: cs)) port?) := by
      apply parsePort_buildNetloc _ _ _ _ hhostCols
      intro pp hpo
      apply parsePort_ok_le n pp
      rw [← portOutOf_some (lowerL (c :: cs)) port? pp hpo]
      exact hpp
    unfold normalizeAuthorUrlL
    rw [if_neg hvne, hrender]
    have hll : lowerL (lowerChar c :: lowerL cs) = lowerL (c :: cs) :=
      lowerL_idem (c :: cs)
    rw [hll]
    rw [normalizeSplit_mk_ok (lowerL (c :: cs)) _ (rstripSlash p) q f true
      _ hppN]
    rw [lowerL_idem, portOutOf_idem]
    have hsemiP : ∀ x ∈ rstripSlash p, (x == ';') = false :=
      fun x hx => hsemi x (mem_rstripSlash p x hx)
    rw [parsePath_no_semi (lowerL (c :: cs)) (rstripSlash p) hsemiP,
      rstripSlash_idem]
    rw [buildNetloc_roundtrip (usernameOf n) (passwordOf n)
      (lowerL (hostRawOf n)) (portOutOf (lowerL (c :: cs)) port?) hhostCols
      (fun u x hu hx => (mem_usernameOf n u x hu hx).2)
      (lowerL_idem (hostRawOf n))]
    rw [hv]

/-- C2 counterexample: `normalize_author_url` is not idempotent on all URL
strings. A schemeless input gains a spurious `://` prefix on every pass
(`"x"` ↦ `"://x"` ↦ `"://://x"`); when the last path segment carries
`;params` and a trailing slash, the first pass strips the slash and the
second pass then strips the params (`"http://h/a;b/"` ↦ `"http://h/a;b"`
↦ `"http://h/a"`); and a bracketed IPv6 host (`[::1]` passes `urlsplit`'s
bracket validation) loses its brackets, because the rebuild uses
`parsed.hostname`, so the output `"http://::1/x"` no longer parses: the
second pass hits the `ValueError` of `port` (modelled as `none`). -/
theorem c2_normalize_counterexample :
    normalizeAuthorUrl "x" = some "://x" ∧
    normalizeAuthorUrl "://x" = some "://://x" ∧
    (some "://x" : Option String) ≠ some "://://x" ∧
    normalizeAuthorUrl "http://h/a;b/" = some "http://h/a;b" ∧
    normalizeAuthorUrl "http://h/a;b" = some "http://h/a" ∧
    normalizeAuthorUrl "http://[::1]/x" = some "http://::1/x" ∧
    normalizeAuthorUrl "http://::1/x" = none := by
  refine ⟨by decide, by decide, by decide, by decide, by decide,
    by decide, by decide⟩

/-- C2 (amended): `normalize_author_url` is deterministic (it is a pure
function of its input), and it is idempotent on every URL whose parse has a
nonempty scheme and an explicit `//` authority, whose path carries no
`;params`, and whose netloc carries no bracket: if normalization maps `u`
to `v`, it maps `v` to `v`. The claim's concrete example also holds:
`normalize("HTTP://Host:80/x/") = normalize("http://host/x")`. Idempotence
does not hold for all URL strings (see the counterexample): schemeless
inputs gain a `://` prefix each pass, a trailing slash ahead of `;params`
in the last path segment makes the second pass strip more, and a
bracketed IPv6 host loses its brackets on the first pass, making the
second pass raise `ValueError` in `urlsplit`. -/
theorem c2_normalize_idempotent (u v : List Char)
    (hs : (urlsplitL u).scheme ≠ [])
    (ha : (urlsplitL u).hasAuth = true)
    (hsemi : ∀ x ∈ (urlsplitL u).path, (x == ';') = false)
    (hbr : ∀ x ∈ (urlsplitL u).netloc,
      (x == '[') = false ∧ (x == ']') = false)
    (hok : normalizeAuthorUrlL u = .ok v) :
    normalizeAuthorUrlL v = .ok v ∧
      normalizeAuthorUrl "HTTP://Host:80/x/"
        = normalizeAuthorUrl "http://host/x" := by
  refine ⟨?_, by decide⟩
  by_cases hu : u = []
  · subst hu
    exact absurd (by decide) hs
  · have hfacts := urlsplitL_facts u
    rcases hfacts.1 with hnil | ⟨c, cs, hsch, halpha, hall⟩
    · exact absurd hnil hs
    · unfold normalizeAuthorUrlL at hok
      rw [if_neg hu] at hok
      have hok2 : normalizeSplit ⟨(urlsplitL u).scheme, (urlsplitL u).netloc,
          (urlsplitL u).path, (urlsplitL u).query, (urlsplitL u).fragment,
          (urlsplitL u).hasAuth⟩ = .ok v := hok
      rw [hsch, ha] at hok2
      exact normalize_idem_aux c cs (urlsplitL u).netloc (urlsplitL u).path
        (urlsplitL u).query (urlsplitL u).fragment v halpha hall
        hfacts.2.1 hfacts.2.2.1 (hfacts.2.2.2.1 ha) hsemi
        (fun x hx => (hbr x hx).1)
        hfacts.2.2.2.2.1 hfacts.2.2.2.2.2 hok2

/-- Witness: the amended C2 theorem applied at the concrete URL
`http://User:pw@Host:8080/a/b/?q#f`, whose normal form
`http://User:pw@host:8080/a/b?q#f` is a fixed point. -/
theorem c2_normalize_idempotent_witness :
    normalizeAuthorUrlL "http://User:pw@host:8080/a/b?q#f".toList
      = .ok "http://User:pw@host:8080/a/b?q#f".toList :=
  (c2_normalize_idempotent "http://User:pw@Host:8080/a/b/?q#f".toList
    "http://User:pw@host:8080/a/b?q#f".toList (by decide) (by decide)
    (by decide) (by decide) rfl).1

theorem getOrCreateBy_mem {α β : Type} [DecidableEq β] (key : α → β) (k : β)
    (row : α) (store : List α) (h : ∃ r ∈ store, key r = k) :
    getOrCreateBy key k row store = (store, false) := by
  induction store with
  | nil =>
    obtain ⟨r, hr, _⟩ := h
    simp at hr
  | cons r rs ih =>
    unfold getOrCreateBy
    by_cases hk : key r = k
    · rw [if_pos hk]
    · rw [if_neg hk]
      obtain ⟨x, hx, hxk⟩ := h
      rw [List.mem_cons] at hx
      rcases hx with hx | hx
      · subst hx
        exact absurd hxk hk
      · rw [ih ⟨x, hx, hxk⟩]

theorem getOrCreateBy_fresh {α β : Type} [DecidableEq β] (key : α → β)
    (k : β) (row : α) (store : List α) (h : ∀ r ∈ store, key r ≠ k) :
    getOrCreateBy key k row store = (store ++ [row], true) := by
  induction store with
  | nil => rfl
  | cons r rs ih =>
    unfold getOrCreateBy
    rw [if_neg (h r (List.mem_cons_self r rs)),
      ih (fun x hx => h x (List.mem_cons.mpr (Or.inr hx)))]
    rfl

theorem updateOrCreateBy_fresh {α β : Type} [DecidableEq β] (key : α → β)
    (k : β) (row : α) (store : List α) (h : ∀ r ∈ store, key r ≠ k) :
    updateOrCreateBy key k row store = (store ++ [row], true) := by
  induction store with
  | nil => rfl
  | cons r rs ih =>
    unfold updateOrCreateBy
    rw [if_neg (h r (List.mem_cons_self r rs)),
      ih (fun x hx => h x (List.mem_cons.mpr (Or.inr hx)))]
    rfl

theorem updateOrCreateBy_mem_length {α β : Type} [DecidableEq β]
    (key : α → β) (k : β) (row : α) (store : List α)
    (h : ∃ r ∈ store, key r = k) :
    (updateOrCreateBy key k row store).1.length = store.length := by
  induction store with
  | nil =>
    obtain ⟨r, hr, _⟩ := h
    simp at hr
  | cons r rs ih =>
    unfold updateOrCreateBy
    by_cases hk : key r = k
    · rw [if_pos hk]
      simp
    · rw [if_neg hk]
      obtain ⟨x, hx, hxk⟩ := h
      rw [List.mem_cons] at hx
      rcases hx with hx | hx
      · subst hx
        exact absurd hxk hk
      · simp only [List.length_cons]
        rw [ih ⟨x, hx, hxk⟩]

theorem rowsBy_eq_nil {α β : Type} [DecidableEq β] (key : α → β) (k : β)
    (store : List α) (h : ∀ r ∈ store, key r ≠ k) :
    rowsBy key k store = [] := by
  unfold rowsBy
  rw [List.filter_eq_nil_iff]
  intro r hr
  rw [decide_eq_true_iff]
  exact h r hr

theorem rowsBy_append {α β : Type} [DecidableEq β] (key : α → β) (k : β)
    (a b : List α) :
    rowsBy key k (a ++ b) = rowsBy key k a ++ rowsBy key k b := by
  unfold rowsBy
  rw [List.filter_append]

theorem rowsBy_singleton_mem {α β : Type} [DecidableEq β] (key : α → β)
    (k : β) (r0 : α) (store : List α) (h : rowsBy key k store = [r0]) :
    r0 ∈ store ∧ key r0 = k := by
  have hm : r0 ∈ rowsBy key k store := by
    rw [h]
    simp
  unfold rowsBy at hm
  have hmf := List.mem_filter.mp hm
  exact ⟨hmf.1, of_decide_eq_true hmf.2⟩

theorem updateOrCreateBy_rows {α β : Type} [DecidableEq β] (key : α → β)
    (k : β) (row : α) (store : List α) (hrow : key row = k)
    (hu : (rowsBy key k store).length ≤ 1) :
    rowsBy key k (updateOrCreateBy key k row store).1 = [row] := by
  induction store with
  | nil => simp [updateOrCreateBy, rowsBy, hrow]
  | cons r rs ih =>
    unfold updateOrCreateBy
    by_cases hk : key r = k
    · rw [if_pos hk]
      have hcount : rowsBy key k (r :: rs) = r :: rowsBy key k rs := by
        simp [rowsBy, List.filter_cons, hk]
      rw [hcount] at hu
      simp only [List.length_cons] at hu
      have hz : (rowsBy key k rs).length = 0 := by omega
      rw [List.length_eq_zero] at hz
      simp [rowsBy, List.filter_cons, hrow]
      intro a ha
      have hnil := List.filter_eq_nil_iff.mp hz a ha
      exact fun hc => hnil (decide_eq_true hc)
    · rw [if_neg hk]
      have hcount : rowsBy key k (r :: rs) = rowsBy key k rs := by
        simp [rowsBy, List.filter_cons, hk]
      rw [hcount] at hu
      have hres : rowsBy key k (r :: (updateOrCreateBy key k row rs).1)
          = rowsBy key k (updateOrCreateBy key k row rs).1 := by
        simp [rowsBy, List.filter_cons, hk]
      rw [hres]
      exact ih hu

theorem updateOrCreateBy_rows_other {α β : Type} [DecidableEq β]
    (key : α → β) (k k2 : β) (row : α) (store : List α)
    (hrow : key row = k) (hne : k2 ≠ k) :
    rowsBy key k2 (updateOrCreateBy key k row store).1
      = rowsBy key k2 store := by
  have hrowne : key row ≠ k2 := by
    rw [hrow]
    exact fun hc => hne hc.symm
  induction store with
  | nil => simp [updateOrCreateBy, rowsBy, hrowne]
  | cons r rs ih =>
    unfold updateOrCreateBy
    by_cases hk : key r = k
    · rw [if_pos hk]
      have hrne : key r ≠ k2 := by
        rw [hk]
        exact fun hc => hne hc.symm
      simp [rowsBy, List.filter_cons, hrne, hrowne]
    · rw [if_neg hk]
      by_cases hr2 : key r = k2
      · simp only [rowsBy, List.filter_cons, hr2]
        simp only [rowsBy] at ih
        simp [ih]
      · simp only [rowsBy, List.filter_cons, hr2]
        simp only [rowsBy] at ih
        simp [hr2, ih]

theorem updateOrCreateBy_unique {α β : Type} [DecidableEq β] (key : α → β)
    (k : β) (row : α) (store : List α) (hrow : key row = k)
    (hu : ∀ k2, (rowsBy key k2 store).length ≤ 1) :
    ∀ k2, (rowsBy key k2 (updateOrCreateBy key k row store).1).length ≤ 1 := by
  intro k2
  by_cases hk : k2 = k
  · subst hk
    rw [updateOrCreateBy_rows key k2 row store hrow (hu k2)]
    simp
  · rw [updateOrCreateBy_rows_other key k k2 row store hrow hk]
    exact hu k2

/-- C3: resolving two author payloads whose ids normalize to the same URL
never creates two records — the second resolution finds the row keyed by
the normalized URL, overwrites its mutable fields in place (last write
wins), and leaves exactly one record for that canonical URL; likewise for
entry payloads keyed by the normalized entry id. -/
theorem c3_resolver_idempotent (d1 d2 : AuthorData) (t1 t2 : Nat)
    (s0 s1 : List AuthorRec) (a1 : AuthorRec) (nurl : String)
    (hu : ∀ k, (rowsBy AuthorRec.url k s0).length ≤ 1)
    (hsame : normalizedIdOf d2 = normalizedIdOf d1)
    (hn : normalizedIdOf d1 = some nurl)
    (h1 : getOrCreateAuthorFromActivity d1 t1 s0 = some (a1, s1)) :
    AuthorResolvedTwice d2 t2 s1 nurl ∧
    (∀ (ed1 ed2 : EntryData) (u1 u2 : Nat) (as0 : List AuthorRec)
      (es0 : List EntryRec) (b1 : AuthorRec) (e1 : EntryRec)
      (as1 : List AuthorRec) (es1 : List EntryRec) (nurlE aurl2 : String),
      (∀ k, (rowsBy EntryRec.url k es0).length ≤ 1) →
      normalizedEntryIdOf ed2 = normalizedEntryIdOf ed1 →
      normalizedEntryIdOf ed1 = some nurlE →
      normalizedIdOf ed2.author = some aurl2 →
      getOrCreateEntryFromActivity ed1 u1 as0 es0 = some (b1, e1, as1, es1) →
      EntryResolvedTwice ed2 u2 aurl2 nurlE as1 es1) := by
  constructor
  · -- the author part
    unfold getOrCreateAuthorFromActivity at h1
    rw [hn] at h1
    simp only [Option.some.injEq, Prod.mk.injEq] at h1
    have hs1 : s1 = (updateOrCreateBy AuthorRec.url nurl
        (mkAuthorRec nurl d1 t1) s0).1 := h1.2.symm
    have hkey1 : (mkAuthorRec nurl d1 t1).url = nurl := rfl
    have hrows1 : rowsBy AuthorRec.url nurl s1 = [mkAuthorRec nurl d1 t1] := by
      rw [hs1]
      exact updateOrCreateBy_rows AuthorRec.url nurl _ s0 hkey1 (hu nurl)
    have hu1 : ∀ k, (rowsBy AuthorRec.url k s1).length ≤ 1 := by
      rw [hs1]
      exact updateOrCreateBy_unique AuthorRec.url nurl _ s0 hkey1 hu
    have hmem1 := rowsBy_singleton_mem AuthorRec.url nurl _ s1 hrows1
    have hkey2 : (mkAuthorRec nurl d2 t2).url = nurl := rfl
    refine ⟨?_, ?_, ?_, ?_⟩
    · unfold getOrCreateAuthorFromActivity
      rw [hsame, hn]
    · exact updateOrCreateBy_mem_length AuthorRec.url nurl _ s1
        ⟨mkAuthorRec nurl d1 t1, hmem1.1, hmem1.2⟩
    · exact updateOrCreateBy_rows AuthorRec.url nurl _ s1 hkey2 (hu1 nurl)
    · exact updateOrCreateBy_unique AuthorRec.url nurl _ s1 hkey2 hu1
  · -- the entry part
    intro ed1 ed2 u1 u2 as0 es0 b1 e1 as1 es1 nurlE aurl2
      huE hsameE hnE haurl2 h1E
    unfold getOrCreateEntryFromActivity at h1E
    cases ha1 : getOrCreateAuthorFromActivity ed1.author u1 as0 with
    | none =>
      rw [ha1] at h1E
      simp at h1E
    | some pr =>
      obtain ⟨a0, as1x⟩ := pr
      rw [ha1, hnE] at h1E
      simp only [Option.some.injEq, Prod.mk.injEq] at h1E
      have hes1 : es1 = (updateOrCreateBy EntryRec.url nurlE
          (mkEntryRec nurlE a0.url ed1 u1) es0).1 := h1E.2.2.2.symm
      have hkeyE1 : (mkEntryRec nurlE a0.url ed1 u1).url = nurlE := rfl
      have hrowsE1 : rowsBy EntryRec.url nurlE es1
          = [mkEntryRec nurlE a0.url ed1 u1] := by
        rw [hes1]
        exact updateOrCreateBy_rows EntryRec.url nurlE _ es0 hkeyE1 (huE nurlE)
      have huE1 : ∀ k, (rowsBy EntryRec.url k es1).length ≤ 1 := by
        rw [hes1]
        exact updateOrCreateBy_unique EntryRec.url nurlE _ es0 hkeyE1 huE
      have hmemE1 := rowsBy_singleton_mem EntryRec.url nurlE _ es1 hrowsE1
      have hkeyE2 : (mkEntryRec nurlE aurl2 ed2 u2).url = nurlE := rfl
      refine ⟨?_, ?_, ?_, ?_⟩
      · unfold getOrCreateEntryFromActivity getOrCreateAuthorFromActivity
        rw [haurl2, hsameE, hnE]
        rfl
      · exact updateOrCreateBy_mem_length EntryRec.url nurlE _ es1
          ⟨mkEntryRec nurlE a0.url ed1 u1, hmemE1.1, hmemE1.2⟩
      · exact updateOrCreateBy_rows EntryRec.url nurlE _ es1 hkeyE2 (huE1 nurlE)
      · exact updateOrCreateBy_unique EntryRec.url nurlE _ es1 hkeyE2 huE1

/-- Witness: the C3 theorem at two concrete payloads for the same author —
ids `http://node/api/authors/5/` and `HTTP://Node/api/authors/5` both
normalize to `http://node/api/authors/5`. -/
theorem c3_resolver_idempotent_witness :
    AuthorResolvedTwice ⟨some "HTTP://Node/api/authors/5", "Al Ice", "img",
        "h", "w"⟩ 1
      [mkAuthorRec "http://node/api/authors/5"
        ⟨some "http://node/api/authors/5/", "Al Ice", "", "h", "w"⟩ 0]
      "http://node/api/authors/5" :=
  (c3_resolver_idempotent
    ⟨some "http://node/api/authors/5/", "Al Ice", "", "h", "w"⟩
    ⟨some "HTTP://Node/api/authors/5", "Al Ice", "img", "h", "w"⟩ 0 1 []
    [mkAuthorRec "http://node/api/authors/5"
      ⟨some "http://node/api/authors/5/", "Al Ice", "", "h", "w"⟩ 0]
    (mkAuthorRec "http://node/api/authors/5"
      ⟨some "http://node/api/authors/5/", "Al Ice", "", "h", "w"⟩ 0)
    "http://node/api/authors/5"
    (fun k => Nat.zero_le 1) (by decide) (by decide) rfl).1

theorem postToInbox_fresh {σ : Type} [DecidableEq σ] (recipient atype : String)
    (d : σ) (store : List (InboxRec σ))
    (hvalid : validateType atype = true)
    (hfresh : ∀ r ∈ store, ¬(r.recipient = recipient ∧ r.activity_type = atype
      ∧ r.object_data = d)) :
    postToInbox recipient atype (some d) store
      = (.created, store ++ [⟨recipient, atype, d⟩]) := by
  have hioc : inboxGetOrCreate recipient atype d store
      = (store ++ [⟨recipient, atype, d⟩], true) := by
    unfold inboxGetOrCreate
    apply getOrCreateBy_fresh
    intro r hr hc
    apply hfresh r hr
    rw [Prod.mk.injEq, Prod.mk.injEq] at hc
    exact ⟨hc.1, hc.2.1, hc.2.2⟩
  unfold postToInbox
  rw [hvalid, if_neg (by decide : ¬(true = false))]
  simp only []
  rw [hioc]
  rfl

theorem postToInbox_dup {σ : Type} [DecidableEq σ] (recipient atype : String)
    (d : σ) (store : List (InboxRec σ))
    (hvalid : validateType atype = true)
    (hmem : ∃ r ∈ store, r.recipient = recipient ∧ r.activity_type = atype
      ∧ r.object_data = d) :
    postToInbox recipient atype (some d) store = (.ok, store) := by
  have hioc : inboxGetOrCreate recipient atype d store = (store, false) := by
    unfold inboxGetOrCreate
    apply getOrCreateBy_mem
    obtain ⟨r, hr, hc⟩ := hmem
    refine ⟨r, hr, ?_⟩
    rw [Prod.mk.injEq, Prod.mk.injEq]
    exact ⟨hc.1, hc.2.1, hc.2.2⟩
  unfold postToInbox
  rw [hvalid, if_neg (by decide : ¬(true = false))]
  simp only []
  rw [hioc]
  rfl

theorem postToInbox_some_mem {σ : Type} [DecidableEq σ]
    (recipient atype : String) (d : σ) (store : List (InboxRec σ))
    (hvalid : validateType atype = true) :
    ∃ r ∈ (postToInbox recipient atype (some d) store).2,
      r.recipient = recipient ∧ r.activity_type = atype
        ∧ r.object_data = d := by
  by_cases hmem : ∃ r ∈ store, r.recipient = recipient
      ∧ r.activity_type = atype ∧ r.object_data = d
  · rw [postToInbox_dup recipient atype d store hvalid hmem]
    exact hmem
  · rw [postToInbox_fresh recipient atype d store hvalid
      (fun r hr hc => hmem ⟨r, hr, hc⟩)]
    exact ⟨⟨recipient, atype, d⟩, by simp, rfl, rfl, rfl⟩

theorem getOrCreateEntry_shape (ed : EntryData) (now : Nat)
    (authors : List AuthorRec) (entries : List EntryRec) (a : AuthorRec)
    (e : EntryRec) (as2 : List AuthorRec) (es2 : List EntryRec)
    (h : getOrCreateEntryFromActivity ed now authors entries
      = some (a, e, as2, es2)) :
    ∃ aurl nurl, normalizedIdOf ed.author = some aurl
      ∧ normalizedEntryIdOf ed = some nurl
      ∧ a = mkAuthorRec aurl ed.author now
      ∧ e = mkEntryRec nurl aurl ed now := by
  unfold getOrCreateEntryFromActivity getOrCreateAuthorFromActivity at h
  cases hna : normalizedIdOf ed.author with
  | none =>
    rw [hna] at h
    simp at h
  | some aurl =>
    rw [hna] at h
    cases hne : normalizedEntryIdOf ed with
    | none =>
      rw [hne] at h
      simp at h
    | some nurl =>
      rw [hne] at h
      simp only [Option.some.injEq, Prod.mk.injEq] at h
      obtain ⟨h1, h2, h3, h4⟩ := h
      exact ⟨aurl, nurl, rfl, rfl, h1.symm, h2.symm⟩

theorem getOrCreateEntry_eq (ed : EntryData) (now2 : Nat)
    (aurl nurl : String)
    (authors : List AuthorRec) (entries : List EntryRec)
    (ha : normalizedIdOf ed.author = some aurl)
    (hn : normalizedEntryIdOf ed = some nurl) :
    getOrCreateEntryFromActivity ed now2 authors entries
      = some (mkAuthorRec aurl ed.author now2,
          mkEntryRec nurl aurl ed now2,
          (updateOrCreateBy AuthorRec.url aurl
            (mkAuthorRec aurl ed.author now2) authors).1,
          (updateOrCreateBy EntryRec.url nurl
            (mkEntryRec nurl aurl ed now2) entries).1) := by
  unfold getOrCreateEntryFromActivity getOrCreateAuthorFromActivity
  rw [ha, hn]
  rfl

/-- C4: the inbox stores at most one item per
`(recipient, activity type, object data)` key: a first delivery of a
fresh key is a 201 that stores exactly one item with that key, and a
redelivery resolving to the same object data is a 200 that stores
nothing. In particular a byte-identical entry activity redelivered at any
later save instant deduplicates: the overridden `to_representation`s of
`EntrySerializer` and `AuthorSerializer` emit no `auto_now` timestamp, so
the re-resolved object data — and with it the triple key of
`get_or_create` — is unchanged, and the second delivery returns 200 and
leaves the inbox exactly as it was. -/
theorem c4_inbox_dedup (recipient atype : String) (d : String)
    (store : List (InboxRec String))
    (hvalid : validateType atype = true)
    (hfresh : ∀ r ∈ store, ¬(r.recipient = recipient
      ∧ r.activity_type = atype ∧ r.object_data = d)) :
    InboxDedup recipient atype d store ∧
    (∀ (rec2 : String) (ed : EntryData) (now now2 : Nat)
      (authors : List AuthorRec) (entries : List EntryRec)
      (inbox : List (InboxRec SerializedEntry)) (r1 : InboxResponse)
      (a1 : List AuthorRec) (e1 : List EntryRec)
      (i1 : List (InboxRec SerializedEntry)),
      deliverEntryActivity rec2 ed now authors entries inbox
        = (r1, a1, e1, i1) →
      r1 ≠ .badRequest →
      (deliverEntryActivity rec2 ed now2 a1 e1 i1).1 = .ok ∧
      (deliverEntryActivity rec2 ed now2 a1 e1 i1).2.2.2 = i1) := by
  constructor
  · have hpost := postToInbox_fresh recipient atype d store hvalid hfresh
    refine ⟨?_, ?_, ?_⟩
    · rw [hpost]
    · rw [hpost]
      show rowsBy _ (recipient, atype, d) (store ++ [⟨recipient, atype, d⟩])
        = [⟨recipient, atype, d⟩]
      rw [rowsBy_append, rowsBy_eq_nil _ _ store (by
        intro r hr hc
        apply hfresh r hr
        rw [Prod.mk.injEq, Prod.mk.injEq] at hc
        exact ⟨hc.1, hc.2.1, hc.2.2⟩)]
      simp [rowsBy]
    · rw [hpost]
      exact postToInbox_dup recipient atype d _ hvalid
        ⟨⟨recipient, atype, d⟩, by simp, rfl, rfl, rfl⟩
  · intro rec2 ed now now2 authors entries inbox r1 a1 e1 i1 h hr1
    unfold deliverEntryActivity at h
    cases hg : getOrCreateEntryFromActivity ed now authors entries with
    | none =>
      rw [hg] at h
      simp only [Prod.mk.injEq] at h
      exact absurd h.1.symm hr1
    | some q =>
      obtain ⟨a, e, as2, es2⟩ := q
      rw [hg] at h
      simp only [Prod.mk.injEq] at h
      obtain ⟨hq1, hq2, hq3, hq4⟩ := h
      obtain ⟨aurl, nurl, hna, hne, haE, heE⟩ :=
        getOrCreateEntry_shape ed now authors entries a e as2 es2 hg
      have hres := getOrCreateEntry_eq ed now2 aurl nurl a1 e1 hna hne
      have hser : serializeEntry (mkEntryRec nurl aurl ed now2)
          (mkAuthorRec aurl ed.author now2) = serializeEntry e a := by
        rw [haE, heE]
        rfl
      unfold deliverEntryActivity
      rw [hres]
      have hdup := postToInbox_dup rec2 "entry" (serializeEntry e a) i1
        (by decide)
        (by
          rw [← hq4]
          exact postToInbox_some_mem rec2 "entry" (serializeEntry e a) inbox
            (by decide))
      show (postToInbox rec2 "entry"
          (some (serializeEntry (mkEntryRec nurl aurl ed now2)
            (mkAuthorRec aurl ed.author now2))) i1).1
          = InboxResponse.ok ∧
        (postToInbox rec2 "entry"
          (some (serializeEntry (mkEntryRec nurl aurl ed now2)
            (mkAuthorRec aurl ed.author now2))) i1).2 = i1
      rw [hser, hdup]
      exact ⟨rfl, rfl⟩

/-- Witness: the C4 theorem at a concrete fresh delivery. -/
theorem c4_inbox_dedup_witness :
    InboxDedup "http://n/api/authors/2" "follow" "od"
      ([] : List (InboxRec String)) :=
  (c4_inbox_dedup "http://n/api/authors/2" "follow" "od" [] (by decide)
    (fun r hr => absurd hr (List.not_mem_nil r))).1

/-- C5 (code bug): the undo handler `_process_unlike_activity` is
deliberately idempotent — it reports success (a non-`None` result) even
when the referenced like was already removed or never existed — but the
inbox endpoint never reaches it: `ActivitySerializer.validate_type` lists
only `entry`, `follow`, `like` and `comment`, so every `undo` activity is
rejected with 400 before the `activity_type == "undo"` dispatch branch of
`_post_to_inbox` can run. POSTing an undo-of-a-like to the inbox therefore
reports an error, not success. -/
theorem c5_undo_like_endpoint (recipient : String) (od? : Option String)
    (store : List (InboxRec String)) :
    validateType "undo" = false ∧
    postToInbox recipient "undo" od? store = (.badRequest, store) ∧
    (∀ (actor objectUrl : String)
      (likeUuid? likeUrl? entryUrl? commentUrl? : Option String)
      (likes : List LikeRow), objectUrl ≠ "" →
      (findLikeForUnlike actor likeUuid? likeUrl? entryUrl? commentUrl?
          likes = none →
        processUnlikeActivity actor objectUrl likeUuid? likeUrl? entryUrl?
          commentUrl? likes = some (likes, false)) ∧
      ∃ res, processUnlikeActivity actor objectUrl likeUuid? likeUrl?
        entryUrl? commentUrl? likes = some res) := by
  refine ⟨by decide, ?_, ?_⟩
  · unfold postToInbox
    rw [if_pos (by decide : validateType "undo" = false)]
  · intro actor objectUrl likeUuid? likeUrl? entryUrl? commentUrl? likes hobj
    unfold processUnlikeActivity
    rw [if_neg hobj]
    cases hfind : findLikeForUnlike actor likeUuid? likeUrl? entryUrl?
        commentUrl? likes with
    | none => exact ⟨fun _ => rfl, ⟨(likes, false), rfl⟩⟩
    | some lk =>
      refine ⟨fun hcontra => ?_, ?_⟩
      · simp at hcontra
      · exact ⟨(likes.filter (fun l => !(l.id == lk.id)), true), rfl⟩

/-- Witness: undoing a like that does not exist still reports success
through the handler, and the endpoint rejects the undo activity. -/
theorem c5_undo_like_endpoint_witness :
    processUnlikeActivity "alice" "http://n/api/entries/9" none none none
      none [] = some ([], false) :=
  ((c5_undo_like_endpoint "http://n/api/authors/2" (some "od") []).2.2
    "alice" "http://n/api/entries/9" none none none none [] (by decide)).1
    rfl

/-- C9: the outbound fan-out attempts one inbox per remote author whatever
each attempt returns (per-recipient `try/except: continue`), and the local
mutation — create, update or soft delete — is already saved and is never
rolled back by delivery outcomes: the local table is a function of the
mutation alone, and the touched entry stays stored (a soft-deleted entry
remains as a `DELETED` row). -/
theorem c9_fanout_independent (db : List StoredEntry)
    (remoteAuthors : List String) (deliver deliver2 : String → Bool)
    (e : StoredEntry) (id newContent : String) :
    (sendToRemoteAuthors remoteAuthors deliver).map Prod.fst
        = remoteAuthors.map inboxUrlOf ∧
    (sendToRemoteAuthors remoteAuthors deliver).length
        = remoteAuthors.length ∧
    (performCreateEntry e db remoteAuthors deliver).1
        = (performCreateEntry e db remoteAuthors deliver2).1 ∧
    (performUpdateEntry id newContent db remoteAuthors deliver).1
        = (performUpdateEntry id newContent db remoteAuthors deliver2).1 ∧
    (destroyEntry id db remoteAuthors deliver).1
        = (destroyEntry id db remoteAuthors deliver2).1 ∧
    e ∈ (performCreateEntry e db remoteAuthors deliver).1 ∧
    (∀ r ∈ db, r.id = id →
      (⟨id, r.content, Visibility.DELETED⟩ : StoredEntry)
        ∈ (destroyEntry id db remoteAuthors deliver).1) := by
  refine ⟨?_, ?_, rfl, rfl, rfl, ?_, ?_⟩
  · unfold sendToRemoteAuthors
    rw [List.map_map]
    rfl
  · unfold sendToRemoteAuthors
    rw [List.length_map]
  · unfold performCreateEntry
    simp
  · intro r hr hrid
    unfold destroyEntry
    rw [List.mem_map]
    refine ⟨r, hr, ?_⟩
    rw [if_pos hrid, hrid]

/-- Witness: soft-deleting a stored entry keeps it locally as a `DELETED`
row even when every remote delivery fails. -/
theorem c9_fanout_independent_witness :
    (⟨"e1", "hello", Visibility.DELETED⟩ : StoredEntry)
      ∈ (destroyEntry "e1" [⟨"e1", "hello", Visibility.PUBLIC⟩]
          ["http://remote/api/authors/7/"] (fun _ => false)).1 :=
  (c9_fanout_independent [⟨"e1", "hello", Visibility.PUBLIC⟩]
    ["http://remote/api/authors/7/"] (fun _ => false) (fun _ => true)
    ⟨"e9", "x", Visibility.PUBLIC⟩ "e1" "nc").2.2.2.2.2.2
    ⟨"e1", "hello", Visibility.PUBLIC⟩ (by decide) rfl

end Social
